import Mathlib

/-! # hoa2pg: from deterministic parity automata to parity-game arenas

A shallow embedding of `src/hoa2pg.cpp`:

* the command-line handling of `main` (lines 79-114) and `usage` (lines 63-77);
* Step 1 of `main` (lines 143-174), the binary-counter enumeration of the
  valuations of the uncontrollable inputs;
* Step 2 of `main` (lines 178-221), the construction of the arena;
* the two post-condition checks of lines 222-223.

Conventions. `unsigned int` and `int` values are natural numbers: the counters
of the program (`nindex`, `state`, the loop indices) stay far below `2^31` on
every input whose arena fits in memory, so no wrap-around takes place.  The
`std::vector`s are lists, the `std::map` is an association list that is only
ever extended at keys that are absent, and an `assert` that fails makes the
construction return `none`.
-/

namespace Hoa2pg

/-! ## Boolean functions (the CUDD surface used by `main`) -/

/-- Modelled from the spec: the decision-diagram manager (`cuddObj.hh`) is an external
library; `main` uses `bddOne`, `bddZero`, `bddVar`, `~`, `&` and `==`.  A `BDD` is
represented by a formula; CUDD keeps diagrams canonical, so the test `f == bddZero`
of the program is the test that `f` is unsatisfiable (`BDD.isZero` below). -/
inductive BDD where
  | bddOne : BDD
  | bddZero : BDD
  | bddVar (i : Nat) : BDD
  | neg (f : BDD) : BDD
  | and (f g : BDD) : BDD
  deriving DecidableEq

/-- The value of a boolean function under an assignment of its variables. -/
def BDD.eval (σ : Nat → Bool) : BDD → Bool
  | .bddOne => true
  | .bddZero => false
  | .bddVar i => σ i
  | .neg f => !(f.eval σ)
  | .and f g => f.eval σ && g.eval σ

/-- The variables a boolean function is written with. -/
def BDD.support : BDD → List Nat
  | .bddOne => []
  | .bddZero => []
  | .bddVar i => [i]
  | .neg f => f.support
  | .and f g => f.support ++ g.support

/-- All assignments of the listed variables (every other variable is false). -/
def assignments : List Nat → List (Nat → Bool)
  | [] => [fun _ => false]
  | x :: xs =>
    (assignments xs).flatMap fun σ =>
      [fun y => if y = x then false else σ y, fun y => if y = x then true else σ y]

/-- The test `f == mgr.bddZero()`: no assignment satisfies `f`. -/
def BDD.isZero (f : BDD) : Bool :=
  (assignments f.support).all fun σ => !(f.eval σ)

/-- The guard test of line 205, negated: `(guard & val) != bddZero`. -/
def compatible (guard val : BDD) : Bool :=
  !(BDD.and guard val).isZero

/-! ## The automaton and the arena -/

/-- Modelled from the spec: `SimpleAutomaton.h` is not among the sources; `main` reads
`numStates()`, `uinputs`, `priorities[state]` and `successors[state]`, the latter an
ordered sequence of (guard, target state) pairs. -/
structure SimpleAutomaton where
  numStates : Nat
  uinputs : List Nat
  priorities : Nat → Nat
  successors : Nat → List (BDD × Nat)

/-- Modelled from the spec: `SimpleArena.h` is not among the sources; `main` fills its
three parallel vectors `protagonist_vertex`, `successors` and `priorities`. -/
structure SimpleArena where
  protagonist_vertex : List Bool
  successors : List (List Nat)
  priorities : List Nat
  deriving DecidableEq

/-- The successor list of a vertex (empty for an index that is not a vertex). -/
def SimpleArena.succ (g : SimpleArena) (x : Nat) : List Nat :=
  g.successors.getD x []

/-- The three `push_back`s that create a vertex (lines 184-186, 191-195, 212-214). -/
def SimpleArena.addVertex (g : SimpleArena) (protagonist : Bool) (priority : Nat) :
    SimpleArena :=
  { protagonist_vertex := g.protagonist_vertex ++ [protagonist]
    successors := g.successors ++ [[]]
    priorities := g.priorities ++ [priority] }

/-- The statement `game.successors[u].push_back(w)` (lines 197 and 217). -/
def SimpleArena.addEdge (g : SimpleArena) (u w : Nat) : SimpleArena :=
  { g with successors := g.successors.modify (fun l => l ++ [w]) u }

/-! ## Step 1: the valuations of the uncontrollable inputs -/

/-- Lines 153-159: the conjunction of the literals of the current counter value. -/
def valBDD (uinputs : List Nat) (val : List Bool) : BDD :=
  (List.range uinputs.length).foldl
    (fun acc i =>
      let varBDD := BDD.bddVar (uinputs.getD i 0)
      BDD.and acc (if !(val.getD i false) then BDD.neg varBDD else varBDD))
    BDD.bddOne

/-- Lines 162-173, the carry loop `for (int i = size - 1; i >= 0; i--)`, entered with
`i + 1` equal to the first argument.  The result is the new counter and the new value of
`done`.  With `size = 0` the initial `i` is `-1`, the body never runs and `done` keeps
the value `false` it had at the loop head. -/
def increase : Nat → List Bool → List Bool × Bool
  | 0, val => (val, false)
  | i + 1, val =>
    if !(val.getD i false) then (val.set i true, false)
    else if i > 0 then increase i (val.set i false)
    else (val, true)

/-- The variables of the `while (!done)` loop of lines 151-174. -/
structure EnumState where
  val : List Bool
  done : Bool
  input_vals : List BDD

/-- One run of the body of the `while` loop: push the valuation, increase the counter. -/
def enumBody (uinputs : List Nat) (s : EnumState) : EnumState :=
  let r := increase uinputs.length s.val
  { val := r.1, done := r.2, input_vals := s.input_vals ++ [valBDD uinputs s.val] }

/-- The state at the first evaluation of the loop condition (lines 147-151). -/
def enumInit (uinputs : List Nat) : EnumState :=
  { val := List.replicate uinputs.length false, done := false, input_vals := [] }

/-- The `while (!done)` loop, with a bound on the number of evaluations of its condition:
`none` means that the loop is still running when the bound is used up. -/
def enumLoop (uinputs : List Nat) : Nat → EnumState → Option (List BDD)
  | 0, _ => none
  | fuel + 1, s => if s.done then some s.input_vals else enumLoop uinputs fuel (enumBody uinputs s)

/-- Step 1 of `main`: the list `input_vals`, when the loop ends within the bound. -/
def enumerate (fuel : Nat) (uinputs : List Nat) : Option (List BDD) :=
  enumLoop uinputs fuel (enumInit uinputs)

/-! ## Step 2: the arena -/

/-- The variables of Step 2: the vertex counter, the state-to-vertex cache, the arena. -/
structure BuildState where
  nindex : Nat
  state2vertex : List (Nat × Nat)
  game : SimpleArena
  deriving DecidableEq

/-- The lookup `state2vertex.find(s)`. -/
def BuildState.find (st : BuildState) (s : Nat) : Option Nat :=
  st.state2vertex.lookup s

/-- The read `state2vertex[s]` (a `std::map` yields `0` at an absent key). -/
def BuildState.vertexOf (st : BuildState) (s : Nat) : Nat :=
  (st.find s).getD 0

/-- Lines 178-180. -/
def BuildState.init : BuildState :=
  { nindex := 0, state2vertex := [], game := ⟨[], [], []⟩ }

/-- Lines 182-187 and 210-215: give state `s` a class-A vertex unless it has one. -/
def ensureState (a : SimpleAutomaton) (st : BuildState) (s : Nat) : BuildState :=
  if (st.find s).isNone then
    { nindex := st.nindex + 1
      state2vertex := (s, st.nindex) :: st.state2vertex
      game := st.game.addVertex true (a.priorities s) }
  else st

/-- Lines 190-197: the fresh class-B vertex of the current state and its incoming edge. -/
def openNature (a : SimpleAutomaton) (state : Nat) (st : BuildState) : BuildState :=
  { nindex := st.nindex + 1
    state2vertex := st.state2vertex
    game := (st.game.addVertex false (a.priorities state)).addEdge (st.vertexOf state) st.nindex }

/-- Lines 203-217: the body of the loop over the transitions of the current state; the
second component is `atleastone`. -/
def succStep (a : SimpleAutomaton) (val : BDD) (nature_vertex : Nat)
    (acc : BuildState × Bool) (succ : BDD × Nat) : BuildState × Bool :=
  if !(compatible succ.1 val) then acc
  else
    let next_state := succ.2
    let st := ensureState a acc.1 next_state
    ({ st with game := st.game.addEdge nature_vertex (st.vertexOf next_state) }, true)

/-- Lines 190-219: one valuation of the current state; `none` when `assert(atleastone)`
fails. -/
def valStep (a : SimpleAutomaton) (state : Nat) (st : BuildState) (val : BDD) :
    Option BuildState :=
  let nature_vertex := st.nindex
  let r := (a.successors state).foldl (succStep a val nature_vertex) (openNature a state st, false)
  if r.2 then some r.1 else none

/-- Lines 189-220: the loop over `input_vals`. -/
def valLoop (a : SimpleAutomaton) (state : Nat) : List BDD → BuildState → Option BuildState
  | [], st => some st
  | val :: rest, st =>
    match valStep a state st val with
    | none => none
    | some st' => valLoop a state rest st'

/-- Lines 182-220: the body of the loop over the states. -/
def stateStep (a : SimpleAutomaton) (input_vals : List BDD) (st : BuildState) (state : Nat) :
    Option BuildState :=
  valLoop a state input_vals (ensureState a st state)

/-- The loop over the states, on the list of the states still to be expanded. -/
def stateLoop (a : SimpleAutomaton) (input_vals : List BDD) :
    List Nat → BuildState → Option BuildState
  | [], st => some st
  | state :: rest, st =>
    match stateStep a input_vals st state with
    | none => none
    | some st' => stateLoop a input_vals rest st'

/-- Lines 178-221 with the final values of all variables of Step 2. -/
def build (a : SimpleAutomaton) (input_vals : List BDD) : Option BuildState :=
  stateLoop a input_vals (List.range a.numStates) BuildState.init

/-- Step 2 of `main` (GameBuilder): the arena, or `none` when `assert(atleastone)` fails. -/
def gameBuilder (a : SimpleAutomaton) (input_vals : List BDD) : Option SimpleArena :=
  (build a input_vals).map fun st => st.game

/-- Steps 1 and 2 of `main` in sequence: the outer `none` is a Step 1 that does not end
within the bound, the inner one a failed `assert(atleastone)`. -/
def reduction (fuel : Nat) (a : SimpleAutomaton) : Option (Option SimpleArena) :=
  (enumerate fuel a.uinputs).map (gameBuilder a)

/-! ## Auxiliary notions -/

/-- State `s` has a transition whose guard is compatible with the valuation `v`. -/
def expandable (a : SimpleAutomaton) (s : Nat) (v : BDD) : Bool :=
  (a.successors s).any fun tr => compatible tr.1 v

/-- The number of occurrences of `x` in all successor lists. -/
def SimpleArena.occurrences (g : SimpleArena) (x : Nat) : Nat :=
  (g.successors.map (List.count x)).sum

/-! ## The invariant of the construction

The invariant speaks about the program state and a record of what the loops have done so
far: `prog s` is the list of the valuations already handled for state `s`, and
`(b, s, v, pre)` describes the class-B vertex whose transition loop is running: the vertex,
its state, its valuation and the transitions already scanned. -/

/-- The record of the progress of the loops of Step 2. -/
structure Ghost where
  prog : Nat → List BDD
  b : Nat
  s : Nat
  v : BDD
  pre : List (BDD × Nat)

/-- The transition loop of the recorded class-B vertex has scanned every transition. -/
def Ghost.Closed (a : SimpleAutomaton) (γ : Ghost) : Prop :=
  γ.pre = a.successors γ.s

/-- The vertices `ws` are the class-A vertices of the targets of the transitions `trs`. -/
def Linked (st : BuildState) (trs : List (BDD × Nat)) (ws : List Nat) : Prop :=
  List.Forall₂ (fun tr w => st.find tr.2 = some w) trs ws

/-- Vertex `b` is the class-B vertex of state `s` and valuation `v`. -/
def Bv (a : SimpleAutomaton) (st : BuildState) (γ : Ghost) (s : Nat) (v : BDD) (b : Nat) :
    Prop :=
  st.game.protagonist_vertex[b]? = some false ∧
  st.game.priorities[b]? = some (a.priorities s) ∧
  ∃ pre, Linked st (pre.filter fun tr => compatible tr.1 v) (st.game.succ b) ∧
    (b = γ.b → s = γ.s ∧ v = γ.v ∧ pre = γ.pre) ∧ (b ≠ γ.b → pre = a.successors s)

/-- The invariant of Step 2. -/
structure Inv (a : SimpleAutomaton) (st : BuildState) (γ : Ghost) : Prop where
  len_p : st.game.protagonist_vertex.length = st.nindex
  len_s : st.game.successors.length = st.nindex
  len_q : st.game.priorities.length = st.nindex
  keys_nodup : (st.state2vertex.map Prod.fst).Nodup
  cntA : st.game.protagonist_vertex.count true = st.state2vertex.length
  cache_prot : ∀ s x, st.find s = some x → st.game.protagonist_vertex[x]? = some true
  cache_prio : ∀ s x, st.find s = some x → st.game.priorities[x]? = some (a.priorities s)
  cache_dom : ∀ s x, st.find s = some x → s < a.numStates
  cache_inj : ∀ s s' x, st.find s = some x → st.find s' = some x → s = s'
  protA : ∀ x, st.game.protagonist_vertex[x]? = some true → ∃ s, st.find s = some x
  prog_none : ∀ s, st.find s = none → γ.prog s = []
  shape : ∀ s x, st.find s = some x →
    List.Forall₂ (Bv a st γ s) (γ.prog s) (st.game.succ x)
  protB : ∀ x, st.game.protagonist_vertex[x]? = some false →
    ∃ s xa, st.find s = some xa ∧ x ∈ st.game.succ xa
  count1 : ∀ x, st.game.protagonist_vertex[x]? = some false → st.game.occurrences x = 1

/-- The state `st'` keeps every cache entry and every vertex class of `st`. -/
def Extends (st st' : BuildState) : Prop :=
  (∀ u w, st.find u = some w → st'.find u = some w) ∧
  (∀ (x : Nat) (c : Bool), st.game.protagonist_vertex[x]? = some c →
    st'.game.protagonist_vertex[x]? = some c)

/-- What holds of the final state of Step 2 when all transition targets are declared
states. -/
structure Built (a : SimpleAutomaton) (vs : List BDD) (st : BuildState) : Prop where
  /-- The record with which the invariant holds. -/
  ghost : ∃ γ, Inv a st γ ∧ γ.Closed a ∧ ∀ s, γ.prog s = if s < a.numStates then vs else []
  /-- Every declared state has a class-A vertex. -/
  cached : ∀ s < a.numStates, ∃ x, st.find s = some x

/-- Vertex `b` is a finished class-B vertex of state `s` and valuation `v`: its priority
is that of `s` and its successors are the class-A vertices of the targets of the
transitions of `s` compatible with `v`, in transition order. -/
def NatureOf (a : SimpleAutomaton) (st : BuildState) (s : Nat) (v : BDD) (b : Nat) : Prop :=
  st.game.protagonist_vertex[b]? = some false ∧
  st.game.priorities[b]? = some (a.priorities s) ∧
  st.game.succ b =
    ((a.successors s).filter fun tr => compatible tr.1 v).map fun tr => st.vertexOf tr.2

/-- The number of class-B vertices created so far. -/
def BuildState.natureCount (st : BuildState) : Nat :=
  st.game.protagonist_vertex.count false

/-! ## A worked example -/

/-- A three-state automaton over the uncontrollable input `0` and the controllable input
`1`.  State 1 is declared but not reachable from state 0. -/
def exampleAutomaton : SimpleAutomaton :=
  { numStates := 3
    uinputs := [0]
    priorities := fun s => s
    successors := fun s =>
      if s = 0 then
        [(BDD.bddVar 0, 2), (BDD.neg (BDD.bddVar 0), 0), (BDD.bddVar 1, 2)]
      else [(BDD.bddOne, s)] }

/-- The two valuations of the uncontrollable input of `exampleAutomaton`, as Step 1
produces them. -/
def exampleVals : List BDD :=
  [BDD.and BDD.bddOne (BDD.neg (BDD.bddVar 0)), BDD.and BDD.bddOne (BDD.bddVar 0)]

/-- The final state of Step 2 on `exampleAutomaton` and `exampleVals`. -/
def exampleState : BuildState :=
  { nindex := 9
    state2vertex := [(1, 4), (2, 2), (0, 0)]
    game :=
      { protagonist_vertex := [true, false, true, false, true, false, false, false, false]
        successors := [[1, 3], [0, 2], [7, 8], [2, 2], [5, 6], [4], [4], [2], [2]]
        priorities := [0, 0, 2, 0, 1, 1, 1, 2, 2] } }

/-! ## The post-condition checks -/

/-- Modelled from the spec: `SimpleArena::isComplete` is not among the sources.  The spec
(4.3, CompletenessCheck): "every vertex in `[0, N)` has a non-empty successor list and a
defined priority". -/
def SimpleArena.isComplete (g : SimpleArena) : Bool :=
  (List.range g.protagonist_vertex.length).all fun x =>
    !(g.succ x).isEmpty && decide (x < g.priorities.length)

/-- One round of the traversal: add the successors of the visited vertices. -/
def SimpleArena.visitStep (g : SimpleArena) (visited : List Nat) : List Nat :=
  (visited ++ visited.flatMap g.succ).dedup

/-- The vertices a traversal from vertex 0 visits: `N` rounds reach every vertex that is
at most `N` edges away, hence every reachable vertex. -/
def SimpleArena.visited (g : SimpleArena) : List Nat :=
  (g.visitStep)^[g.protagonist_vertex.length] [0]

/-- Modelled from the spec: `SimpleArena::isReachable` is not among the sources.  The spec
(4.3, ReachabilityCheck): "a traversal (BFS/DFS) from vertex 0 visits all `N` vertices; any
unvisited vertex is a violation". -/
def SimpleArena.isReachable (g : SimpleArena) : Bool :=
  (List.range g.protagonist_vertex.length).all fun x => decide (x ∈ g.visited)

/-- Vertex `y` can be reached from vertex `x` by following successor edges. -/
def SimpleArena.Reach (g : SimpleArena) : Nat → Nat → Prop :=
  Relation.ReflTransGen fun x y => y ∈ g.succ x

/-- State `t` is the target of a transition of `s` whose guard is compatible with at least
one valuation of the sequence. -/
def SimpleAutomaton.Step (a : SimpleAutomaton) (vals : List BDD) (s t : Nat) : Prop :=
  ∃ tr ∈ a.successors s, tr.2 = t ∧ ∃ v ∈ vals, compatible tr.1 v = true

/-- State `t` can be reached from state `s` along such transitions. -/
def SimpleAutomaton.Reach (a : SimpleAutomaton) (vals : List BDD) : Nat → Nat → Prop :=
  Relation.ReflTransGen (a.Step vals)

/-! ## The command line -/

/-- How `main` leaves its argument handling (lines 79-114): it returns with an exit status
after writing to standard output and standard error, before any file is opened, or it goes
on to open the input file at line 121. -/
inductive ArgOutcome where
  | returned (status : Nat) (out : List String) (err : List String) : ArgOutcome
  | openFile (ehoafile : String) : ArgOutcome
  deriving DecidableEq

/-- The lines `printVersion` writes (lines 53-60). -/
def printVersion : List String :=
  ["hoa2pg v1.0 (C) Copyright 2019- Guillermo A. Perez",
   "Use this tool to translate eHOA files encoding deterministic",
   "parity automata into parity games played on graphs."]

/-- The function `usage` of lines 63-77, followed by the `return` of its caller. -/
def usage (error : String) : ArgOutcome :=
  if error ≠ "" then
    ArgOutcome.returned 2 []
      (printVersion ++ ["ERROR: Command-line arguments error: " ++ error,
        "Use argument \x27--help\x27 to get usage information."])
  else
    ArgOutcome.returned (if error ≠ "" then 2 else 0)
      (printVersion ++ [" A single argument is expected: an extended HOA-format",
        " file with a deterministic parity automaton"]) []

/-- The test `arg.compare(0, 2, "--") == 0` of line 93. -/
def isOption (arg : String) : Bool :=
  arg.data.take 2 == ['-', '-']

/-- The loop of lines 90-111 over the queue of arguments, followed by lines 112-114. -/
def argLoop : List String → Bool → String → ArgOutcome
  | [], ehoafile_set, ehoafile =>
    if !ehoafile_set then usage "Expected a file path with an eHOA file!"
    else ArgOutcome.openFile ehoafile
  | arg :: arguments, ehoafile_set, _ =>
    if isOption arg then
      if arg = "--help" then usage ""
      else if arg = "--version" then ArgOutcome.returned 0 printVersion []
      else usage ("Unexpected option " ++ arg)
    else if !ehoafile_set then argLoop arguments true arg
    else usage ("Unexpected argument " ++ arg)

/-- Lines 80-114 of `main` on the arguments `argv[1..]`. -/
def mainArgs (arguments : List String) : ArgOutcome :=
  if arguments.length = 0 then usage "" else argLoop arguments false ""

/-- The positional arguments: those that do not start with `--`. -/
def positional (arguments : List String) : List String :=
  arguments.filter fun arg => !isOption arg

/-- The outcome of `usage` with a non-empty error message. -/
def usageError (error : String) : ArgOutcome :=
  ArgOutcome.returned 2 []
    (printVersion ++ ["ERROR: Command-line arguments error: " ++ error,
      "Use argument \x27--help\x27 to get usage information."])

/-! ## The one-state scenario -/

/-- The automaton of the scenario of C8: one state of priority `p`, `k` uncontrollable
inputs and a single self-loop guarded by the tautology. -/
def selfLoopAutomaton (k p : Nat) : SimpleAutomaton :=
  { numStates := 1
    uinputs := List.range k
    priorities := fun _ => p
    successors := fun _ => [(BDD.bddOne, 0)] }

/-! ## The binary counter -/

/-- The number a counter value stands for, first digit most significant. -/
def counterValue (val : List Bool) : Nat :=
  val.foldl (fun n b => 2 * n + b.toNat) 0

/-- The `k`-digit counter value of the number `j`, first digit most significant. -/
def bits : Nat → Nat → List Bool
  | 0, _ => []
  | k + 1, j => bits k (j / 2) ++ [decide (j % 2 = 1)]

/-- The state of Step 2 on the one-state automaton after `m` valuations. -/
def selfLoopState (p m : Nat) : BuildState :=
  { nindex := m + 1
    state2vertex := [(0, 0)]
    game :=
      { protagonist_vertex := true :: List.replicate m false
        successors := List.range' 1 m :: List.replicate m [0]
        priorities := List.replicate (m + 1) p } }

/-! ## The binary-counting order -/

/-- The valuation that C11 names for the number `j`: the conjunction over `i` of the
literal `u_i` if bit `k - 1 - i` of `j` is 1 and of the literal `NOT u_i` otherwise, where
`k` is the number of uncontrollable inputs and `u_0` is the first of them. -/
def countingValuation (uinputs : List Nat) (j : Nat) : BDD :=
  ((List.range uinputs.length).map fun i =>
    if j.testBit (uinputs.length - 1 - i) then BDD.bddVar (uinputs.getD i 0)
    else BDD.neg (BDD.bddVar (uinputs.getD i 0))).foldl BDD.and BDD.bddOne

/-! ## Well-formedness during the run -/

/-- Well-formedness of the variables of Step 2: the three vectors of the arena have the
length `nindex`, and every vertex stored in the state-to-vertex cache or in an adjacency
list is below `nindex`. -/
structure WellFormed (st : BuildState) : Prop where
  len_p : st.game.protagonist_vertex.length = st.nindex
  len_s : st.game.successors.length = st.nindex
  len_q : st.game.priorities.length = st.nindex
  cache_lt : ∀ p ∈ st.state2vertex, p.2 < st.nindex
  edge_lt : ∀ l ∈ st.game.successors, ∀ w ∈ l, w < st.nindex

/-- The values of the variables of Step 2 during its run on `input_vals`:
* `outer`: after `n` rounds of the loop over the states (lines 181-221);
* `middle`: in the round of `state`, after the vertex of `state` is ensured and the
  valuations `done` are handled (lines 189-220);
* `inner`: in the round of `state` and of the valuation `val`, after the class-B vertex is
  created and the transitions `scanned` are handled (lines 201-218). -/
inductive Intermediate (a : SimpleAutomaton) (input_vals : List BDD) : BuildState → Prop
  | outer (n : Nat) (st : BuildState) :
      n ≤ a.numStates →
      stateLoop a input_vals (List.range n) BuildState.init = some st →
      Intermediate a input_vals st
  | middle (state : Nat) (st : BuildState) (done : List BDD) (st₁ : BuildState) :
      state < a.numStates →
      stateLoop a input_vals (List.range state) BuildState.init = some st →
      done <+: input_vals →
      valLoop a state done (ensureState a st state) = some st₁ →
      Intermediate a input_vals st₁
  | inner (state : Nat) (st : BuildState) (done : List BDD) (val : BDD) (st₁ : BuildState)
      (scanned : List (BDD × Nat)) :
      state < a.numStates →
      stateLoop a input_vals (List.range state) BuildState.init = some st →
      done ++ [val] <+: input_vals →
      valLoop a state done (ensureState a st state) = some st₁ →
      scanned <+: a.successors state →
      Intermediate a input_vals
        (scanned.foldl (succStep a val st₁.nindex) (openNature a state st₁, false)).1

/-! ## Isomorphism of arenas -/

/-- Two arenas are isomorphic: a bijection between their vertices maps vertex 0 to vertex 0
and preserves the owner class, the priority and the number of edges between every pair of
vertices. -/
def ArenaIso (g g' : SimpleArena) : Prop :=
  ∃ f : Nat → Nat,
    (∀ x < g.protagonist_vertex.length, f x < g'.protagonist_vertex.length) ∧
    (∀ x < g.protagonist_vertex.length, ∀ y < g.protagonist_vertex.length,
      f x = f y → x = y) ∧
    (∀ z < g'.protagonist_vertex.length, ∃ x < g.protagonist_vertex.length, f x = z) ∧
    (0 < g.protagonist_vertex.length → f 0 = 0) ∧
    (∀ x < g.protagonist_vertex.length,
      g'.protagonist_vertex[f x]? = g.protagonist_vertex[x]?) ∧
    (∀ x < g.protagonist_vertex.length, g'.priorities[f x]? = g.priorities[x]?) ∧
    (∀ x < g.protagonist_vertex.length, ∀ y < g.protagonist_vertex.length,
      (g'.succ (f x)).count (f y) = (g.succ x).count y)

/-! ## A three-state cycle -/

/-- A three-state cycle over the uncontrollable input `0`: state 0 goes to state 1 when the
input is true and stays otherwise, state 1 goes to state 2, state 2 goes back to state 0.
Every state is reachable from state 0, state 2 only through state 1. -/
def cycleAutomaton : SimpleAutomaton :=
  { numStates := 3
    uinputs := [0]
    priorities := fun s => s + 1
    successors := fun s =>
      if s = 0 then [(BDD.bddVar 0, 1), (BDD.neg (BDD.bddVar 0), 0)]
      else if s = 1 then [(BDD.bddOne, 2)]
      else [(BDD.bddOne, 0)] }

/-- The final state of Step 2 on `cycleAutomaton` and the two valuations of its input. -/
def cycleState : BuildState :=
  { nindex := 9
    state2vertex := [(2, 5), (1, 3), (0, 0)]
    game :=
      { protagonist_vertex := [true, false, false, true, false, true, false, false, false]
        successors := [[1, 2], [0], [3], [4, 6], [5], [7, 8], [5], [0], [0]]
        priorities := [1, 1, 1, 2, 2, 3, 2, 3, 3] } }

/-! # Theorems -/

/-! ## Facts about the boolean functions -/

theorem BDD.eval_congr (f : BDD) (σ τ : Nat → Bool) (h : ∀ x ∈ f.support, σ x = τ x) :
    f.eval σ = f.eval τ := by
  induction f with
  | bddOne => rfl
  | bddZero => rfl
  | bddVar i => exact h i (by simp [BDD.support])
  | neg f ih =>
    simp only [BDD.eval]
    rw [ih (fun x hx => h x (by simpa [BDD.support] using hx))]
  | and f g ihf ihg =>
    simp only [BDD.eval]
    rw [ihf (fun x hx => h x (by simp [BDD.support, hx])),
      ihg (fun x hx => h x (by simp [BDD.support, hx]))]

theorem assignments_complete (xs : List Nat) (σ : Nat → Bool) :
    ∃ τ ∈ assignments xs, ∀ x ∈ xs, τ x = σ x := by
  induction xs with
  | nil => exact ⟨fun _ => false, by simp [assignments], by simp⟩
  | cons x xs ih =>
    obtain ⟨τ, hτ, hagree⟩ := ih
    refine ⟨fun y => if y = x then σ x else τ y, ?_, ?_⟩
    · simp only [assignments, List.mem_flatMap]
      refine ⟨τ, hτ, ?_⟩
      cases hσ : σ x <;> simp
    · intro y hy
      by_cases hyx : y = x
      · simp [hyx]
      · simp only [hyx, if_false]
        rcases List.mem_cons.1 hy with h | h
        · exact absurd h hyx
        · exact hagree y h

/-- The test against `bddZero` is unsatisfiability. -/
theorem BDD.isZero_iff (f : BDD) : f.isZero = true ↔ ∀ σ, f.eval σ = false := by
  constructor
  · intro h σ
    obtain ⟨τ, hτ, hagree⟩ := assignments_complete f.support σ
    have := (List.all_eq_true.1 h) τ hτ
    rw [← BDD.eval_congr f τ σ hagree]
    simpa using this
  · intro h
    exact List.all_eq_true.2 fun σ _ => by simp [h σ]

/-- A guard and a valuation are compatible when some assignment satisfies both. -/
theorem compatible_iff (g v : BDD) :
    compatible g v = true ↔ ∃ σ, g.eval σ = true ∧ v.eval σ = true := by
  unfold compatible
  rw [Bool.not_eq_true', ← Bool.not_eq_true, BDD.isZero_iff]
  simp [BDD.eval]

/-! ## When the construction succeeds -/

theorem succStep_foldl_flag (a : SimpleAutomaton) (v : BDD) (b : Nat)
    (trs : List (BDD × Nat)) (acc : BuildState × Bool) :
    (trs.foldl (succStep a v b) acc).2 = (acc.2 || trs.any fun tr => compatible tr.1 v) := by
  induction trs generalizing acc with
  | nil => simp
  | cons tr trs ih =>
    rw [List.foldl_cons, ih]
    unfold succStep
    by_cases h : compatible tr.1 v = true
    · simp [h]
    · simp only [Bool.not_eq_true] at h
      simp [h]

theorem valStep_isSome (a : SimpleAutomaton) (s : Nat) (st : BuildState) (v : BDD) :
    (valStep a s st v).isSome = expandable a s v := by
  unfold valStep
  simp only [succStep_foldl_flag, Bool.false_or]
  unfold expandable
  cases (a.successors s).any fun tr => compatible tr.1 v <;> simp

theorem valLoop_isSome (a : SimpleAutomaton) (s : Nat) (vs : List BDD) (st : BuildState) :
    (valLoop a s vs st).isSome = vs.all (expandable a s) := by
  induction vs generalizing st with
  | nil => simp [valLoop]
  | cons v vs ih =>
    have hv := valStep_isSome a s st v
    unfold valLoop
    cases hstep : valStep a s st v with
    | none =>
      rw [hstep] at hv
      simp at hv
      simp [← hv]
    | some st' =>
      rw [hstep] at hv
      simp at hv
      simp [ih, ← hv]

theorem stateLoop_isSome (a : SimpleAutomaton) (vs : List BDD) (l : List Nat)
    (st : BuildState) :
    (stateLoop a vs l st).isSome = l.all fun s => vs.all (expandable a s) := by
  induction l generalizing st with
  | nil => simp [stateLoop]
  | cons s l ih =>
    have hs := valLoop_isSome a s vs (ensureState a st s)
    unfold stateLoop stateStep
    cases hstep : valLoop a s vs (ensureState a st s) with
    | none =>
      rw [hstep] at hs
      simp at hs
      obtain ⟨v, hv, hne⟩ := hs
      simp only [Option.isSome_none, List.all_cons]
      have : vs.all (expandable a s) = false := by
        rw [List.all_eq_false]
        exact ⟨v, hv, by simp [hne]⟩
      simp [this]
    | some st' =>
      rw [hstep] at hs
      simp only [Option.isSome_some] at hs
      simp only [ih, List.all_cons, ← hs, Bool.true_and]

theorem build_isSome (a : SimpleAutomaton) (vs : List BDD) :
    (build a vs).isSome = (List.range a.numStates).all fun s => vs.all (expandable a s) :=
  stateLoop_isSome a vs _ _

/-- Success of the construction, as a statement about the automaton. -/
theorem build_isSome_iff (a : SimpleAutomaton) (vs : List BDD) :
    (build a vs).isSome = true ↔
      ∀ s < a.numStates, ∀ v ∈ vs, ∃ tr ∈ a.successors s, compatible tr.1 v = true := by
  rw [build_isSome]
  simp [expandable, List.all_eq_true, List.any_eq_true]

/-! ## The effect of the elementary updates on the arena -/

theorem succ_addVertex (g : SimpleArena) (p : Bool) (q x : Nat) :
    (g.addVertex p q).succ x = g.succ x := by
  unfold SimpleArena.succ SimpleArena.addVertex
  simp only [List.getD_eq_getElem?_getD, List.getElem?_append]
  by_cases h : x < g.successors.length
  · simp [h]
  · have h2 : g.successors[x]? = none := List.getElem?_eq_none (by omega)
    simp only [h, if_false, h2, Option.getD_none]
    cases h3 : [([] : List Nat)][x - g.successors.length]? with
    | none => rfl
    | some l =>
      have := List.getElem?_mem h3
      simp at this
      simp [this]

theorem succ_addEdge (g : SimpleArena) (u w x : Nat) :
    (g.addEdge u w).succ x =
      if x = u ∧ u < g.successors.length then g.succ x ++ [w] else g.succ x := by
  unfold SimpleArena.succ SimpleArena.addEdge
  simp only [List.getD_eq_getElem?_getD, List.getElem?_modify]
  by_cases hx : x = u
  · subst hx
    by_cases hlt : x < g.successors.length
    · simp [hlt, List.getElem?_eq_getElem hlt]
    · simp [hlt, List.getElem?_eq_none (Nat.le_of_not_lt hlt)]
  · have : ¬ u = x := fun h => hx h.symm
    simp only [this, hx, false_and, if_false]
    cases g.successors[x]? <;> simp

theorem sum_count_modify (x w : Nat) (l : List (List Nat)) (u : Nat) :
    ((l.modify (fun r => r ++ [w]) u).map (List.count x)).sum =
      (l.map (List.count x)).sum + if u < l.length ∧ x = w then 1 else 0 := by
  induction l generalizing u with
  | nil => simp
  | cons r l ih =>
    cases u with
    | zero =>
      simp only [List.modify, List.modifyHead, List.map_cons, List.sum_cons, List.count_append,
        List.length_cons, Nat.zero_lt_succ, true_and]
      by_cases hxw : x = w
      · subst hxw
        simp
        omega
      · have : ¬ w = x := fun h => hxw h.symm
        simp [hxw, List.count_cons, this]
    | succ u =>
      simp only [List.modify_succ_cons, List.map_cons, List.sum_cons, ih, List.length_cons,
        Nat.succ_lt_succ_iff]
      omega

theorem occurrences_addVertex (g : SimpleArena) (p : Bool) (q x : Nat) :
    (g.addVertex p q).occurrences x = g.occurrences x := by
  simp [SimpleArena.occurrences, SimpleArena.addVertex]

theorem occurrences_addEdge (g : SimpleArena) (u w x : Nat) :
    (g.addEdge u w).occurrences x =
      g.occurrences x + if u < g.successors.length ∧ x = w then 1 else 0 := by
  simp only [SimpleArena.occurrences, SimpleArena.addEdge, sum_count_modify]

theorem mem_succ_lt_length (g : SimpleArena) (u w : Nat) (h : w ∈ g.succ u) :
    u < g.successors.length := by
  by_contra hlt
  unfold SimpleArena.succ at h
  rw [List.getD_eq_getElem?_getD, List.getElem?_eq_none (Nat.le_of_not_lt hlt)] at h
  simp at h

theorem count_le_occurrences (g : SimpleArena) (u x : Nat) :
    (g.succ u).count x ≤ g.occurrences x := by
  unfold SimpleArena.succ SimpleArena.occurrences
  rw [List.getD_eq_getElem?_getD]
  cases h : g.successors[u]? with
  | none => simp
  | some l =>
    have hmem : l ∈ g.successors := List.getElem?_mem h
    simp only [Option.getD_some]
    exact List.single_le_sum (by simp) _ (List.mem_map.2 ⟨l, hmem, rfl⟩)

theorem forall₂_mem_right {α β : Type} {R : α → β → Prop} {l₁ : List α} {l₂ : List β}
    (h : List.Forall₂ R l₁ l₂) {y : β} (hy : y ∈ l₂) : ∃ x ∈ l₁, R x y := by
  induction h with
  | nil => simp at hy
  | cons hab _ ih =>
    rcases List.mem_cons.1 hy with rfl | hy
    · exact ⟨_, List.mem_cons_self _ _, hab⟩
    · obtain ⟨x, hx, hr⟩ := ih hy
      exact ⟨x, List.mem_cons_of_mem _ hx, hr⟩

theorem forall₂_snoc {α β : Type} {R : α → β → Prop} {l₁ : List α} {l₂ : List β}
    (h : List.Forall₂ R l₁ l₂) {x : α} {y : β} (hxy : R x y) :
    List.Forall₂ R (l₁ ++ [x]) (l₂ ++ [y]) :=
  List.rel_append h (List.Forall₂.cons hxy List.Forall₂.nil)

theorem getElem?_snoc_of_some {α : Type} {l : List α} {x : Nat} {c : α} (d : α)
    (h : l[x]? = some c) : (l ++ [d])[x]? = some c := by
  have hlt : x < l.length := (List.getElem?_eq_some.1 h).1
  rw [List.getElem?_append]
  simp [hlt, h]

theorem getElem?_snoc_eq_some {α : Type} {l : List α} {x : Nat} {c d : α}
    (h : (l ++ [d])[x]? = some c) : l[x]? = some c ∨ (x = l.length ∧ c = d) := by
  rw [List.getElem?_append] at h
  by_cases hlt : x < l.length
  · simp only [hlt, if_true] at h
    exact Or.inl h
  · simp only [hlt, if_false] at h
    have hmem := List.getElem?_mem h
    simp only [List.mem_singleton] at hmem
    have hlen := (List.getElem?_eq_some.1 h).1
    simp only [List.length_singleton] at hlen
    exact Or.inr ⟨by omega, hmem⟩

theorem getElem?_snoc_length {α : Type} (l : List α) (d : α) :
    (l ++ [d])[l.length]? = some d := by
  simp

theorem lookup_cons_nat (s t x : Nat) (l : List (Nat × Nat)) :
    List.lookup s ((t, x) :: l) = if s = t then some x else List.lookup s l := by
  rw [List.lookup_cons]
  by_cases h : s = t
  · simp [h]
  · have : (s == t) = false := by simpa using h
    simp [h, this]

theorem lookup_none_not_mem_keys (s : Nat) (l : List (Nat × Nat)) (h : List.lookup s l = none) :
    s ∉ l.map Prod.fst := by
  intro hmem
  obtain ⟨p, hp, rfl⟩ := List.mem_map.1 hmem
  have := (List.lookup_eq_none_iff.1 h) p hp
  simp at this

theorem lookup_isSome_of_mem_keys (s : Nat) (l : List (Nat × Nat)) (h : s ∈ l.map Prod.fst) :
    ∃ x, List.lookup s l = some x := by
  cases hl : List.lookup s l with
  | none => exact absurd h (lookup_none_not_mem_keys s l hl)
  | some x => exact ⟨x, rfl⟩

theorem mem_keys_of_lookup (s x : Nat) (l : List (Nat × Nat)) (h : List.lookup s l = some x) :
    s ∈ l.map Prod.fst := by
  induction l with
  | nil => simp at h
  | cons p l ih =>
    obtain ⟨t, y⟩ := p
    rw [lookup_cons_nat] at h
    by_cases hst : s = t
    · simp [hst]
    · simp only [hst, if_false] at h
      simp [ih h]

/-! ## The invariant of the construction -/

theorem Linked.mono {st st' : BuildState} {trs : List (BDD × Nat)} {ws : List Nat}
    (hF : ∀ u w, st.find u = some w → st'.find u = some w) (h : Linked st trs ws) :
    Linked st' trs ws :=
  List.Forall₂.imp (fun _ _ hr => hF _ _ hr) h

theorem Inv.cache_lt {a : SimpleAutomaton} {st : BuildState} {γ : Ghost} (h : Inv a st γ)
    {s x : Nat} (hx : st.find s = some x) : x < st.nindex := by
  have := (List.getElem?_eq_some.1 (h.cache_prot s x hx)).1
  rw [h.len_p] at this
  exact this

theorem Inv.classB_lt {a : SimpleAutomaton} {st : BuildState} {γ : Ghost} (h : Inv a st γ)
    {x : Nat} {c : Bool} (hx : st.game.protagonist_vertex[x]? = some c) : x < st.nindex := by
  have := (List.getElem?_eq_some.1 hx).1
  rw [h.len_p] at this
  exact this

/-- Every class-B vertex is the vertex of a state and of one of its handled valuations. -/
theorem Inv.owner {a : SimpleAutomaton} {st : BuildState} {γ : Ghost} (h : Inv a st γ)
    {x : Nat} (hx : st.game.protagonist_vertex[x]? = some false) :
    ∃ s xa v, st.find s = some xa ∧ x ∈ st.game.succ xa ∧ v ∈ γ.prog s ∧ Bv a st γ s v x := by
  obtain ⟨s, xa, hs, hmem⟩ := h.protB x hx
  obtain ⟨v, hv, hbv⟩ := forall₂_mem_right (h.shape s xa hs) hmem
  exact ⟨s, xa, v, hs, hmem, hv, hbv⟩

/-- No edge leaves the arena. -/
theorem Inv.edge_lt {a : SimpleAutomaton} {st : BuildState} {γ : Ghost} (h : Inv a st γ)
    {u w : Nat} (hw : w ∈ st.game.succ u) : w < st.nindex := by
  have hu : u < st.game.protagonist_vertex.length := by
    rw [h.len_p, ← h.len_s]
    exact mem_succ_lt_length _ _ _ hw
  have hPu : st.game.protagonist_vertex[u]? = some (st.game.protagonist_vertex[u]) :=
    List.getElem?_eq_getElem hu
  cases hc : st.game.protagonist_vertex[u] with
  | true =>
    rw [hc] at hPu
    obtain ⟨s, hs⟩ := h.protA u hPu
    obtain ⟨v, _, hbv⟩ := forall₂_mem_right (h.shape s u hs) hw
    exact h.classB_lt hbv.1
  | false =>
    rw [hc] at hPu
    obtain ⟨s, xa, v, _, _, _, hbv⟩ := h.owner hPu
    obtain ⟨pre, hlink, _⟩ := hbv.2.2
    obtain ⟨tr, _, htr⟩ := forall₂_mem_right hlink hw
    exact h.cache_lt htr

theorem Inv.occurrences_nindex {a : SimpleAutomaton} {st : BuildState} {γ : Ghost}
    (h : Inv a st γ) : st.game.occurrences st.nindex = 0 := by
  unfold SimpleArena.occurrences
  apply List.sum_eq_zero
  intro n hn
  obtain ⟨l, hl, rfl⟩ := List.mem_map.1 hn
  rw [List.count_eq_zero]
  intro hmem
  obtain ⟨u, hu⟩ := List.getElem?_of_mem hl
  have : st.nindex ∈ st.game.succ u := by
    unfold SimpleArena.succ
    rw [List.getD_eq_getElem?_getD, hu]
    exact hmem
  exact absurd (h.edge_lt this) (Nat.lt_irrefl _)

theorem Inv.init (a : SimpleAutomaton) (γ : Ghost) (hγ : ∀ s, γ.prog s = []) :
    Inv a BuildState.init γ where
  len_p := rfl
  len_s := rfl
  len_q := rfl
  keys_nodup := List.nodup_nil
  cntA := rfl
  cache_prot := fun s x h => by simp [BuildState.init, BuildState.find] at h
  cache_prio := fun s x h => by simp [BuildState.init, BuildState.find] at h
  cache_dom := fun s x h => by simp [BuildState.init, BuildState.find] at h
  cache_inj := fun s s' x h => by simp [BuildState.init, BuildState.find] at h
  protA := fun x h => by simp [BuildState.init] at h
  prog_none := fun s _ => hγ s
  shape := fun s x h => by simp [BuildState.init, BuildState.find] at h
  protB := fun x h => by simp [BuildState.init] at h
  count1 := fun x h => by simp [BuildState.init] at h

theorem ensureState_present (a : SimpleAutomaton) {st : BuildState} {t x : Nat}
    (h : st.find t = some x) : ensureState a st t = st := by
  simp [ensureState, h]

theorem ensureState_absent (a : SimpleAutomaton) {st : BuildState} {t : Nat}
    (h : st.find t = none) :
    ensureState a st t =
      ⟨st.nindex + 1, (t, st.nindex) :: st.state2vertex,
        st.game.addVertex true (a.priorities t)⟩ := by
  simp [ensureState, h]

/-- Giving a declared state its class-A vertex keeps the invariant. -/
theorem Inv.afterEnsureState {a : SimpleAutomaton} {st : BuildState} {γ : Ghost} (h : Inv a st γ)
    {t : Nat} (ht : t < a.numStates) : Inv a (ensureState a st t) γ := by
  cases hfind : st.find t with
  | some x => rw [ensureState_present a hfind]; exact h
  | none =>
    rw [ensureState_absent a hfind]
    have hf : ∀ s, (BuildState.mk (st.nindex + 1) ((t, st.nindex) :: st.state2vertex)
        (st.game.addVertex true (a.priorities t))).find s =
        if s = t then some st.nindex else st.find s := by
      intro s
      simp only [BuildState.find, lookup_cons_nat]
    have hmono : ∀ u w, st.find u = some w →
        (BuildState.mk (st.nindex + 1) ((t, st.nindex) :: st.state2vertex)
          (st.game.addVertex true (a.priorities t))).find u = some w := by
      intro u w hu
      rw [hf]
      have : u ≠ t := by
        rintro rfl
        rw [hfind] at hu
        exact absurd hu (by simp)
      simp [this, hu]
    have hold : ∀ {x : Nat} {c : Bool},
        (st.game.protagonist_vertex ++ [true])[x]? = some c → c = false →
        st.game.protagonist_vertex[x]? = some false := by
      intro x c hx hc
      subst hc
      rcases getElem?_snoc_eq_some hx with h1 | ⟨_, h2⟩
      · exact h1
      · exact absurd h2 (by simp)
    refine ⟨?_, ?_, ?_, ?_, ?_, ?_, ?_, ?_, ?_, ?_, ?_, ?_, ?_, ?_⟩
    · simp [SimpleArena.addVertex, h.len_p]
    · simp [SimpleArena.addVertex, h.len_s]
    · simp [SimpleArena.addVertex, h.len_q]
    · simp only [List.map_cons, List.nodup_cons]
      exact ⟨lookup_none_not_mem_keys t _ hfind, h.keys_nodup⟩
    · simp [SimpleArena.addVertex, h.cntA]
    · intro s x hs
      rw [hf] at hs
      simp only [SimpleArena.addVertex]
      by_cases hst : s = t
      · simp only [hst, if_true, Option.some.injEq] at hs
        rw [← hs, ← h.len_p]
        exact getElem?_snoc_length _ _
      · simp only [hst, if_false] at hs
        exact getElem?_snoc_of_some _ (h.cache_prot s x hs)
    · intro s x hs
      rw [hf] at hs
      simp only [SimpleArena.addVertex]
      by_cases hst : s = t
      · simp only [hst, if_true, Option.some.injEq] at hs
        rw [← hs, ← h.len_q, hst]
        exact getElem?_snoc_length _ _
      · simp only [hst, if_false] at hs
        exact getElem?_snoc_of_some _ (h.cache_prio s x hs)
    · intro s x hs
      rw [hf] at hs
      by_cases hst : s = t
      · rw [hst]; exact ht
      · simp only [hst, if_false] at hs
        exact h.cache_dom s x hs
    · intro s s' x hs hs'
      rw [hf] at hs hs'
      by_cases hst : s = t <;> by_cases hst' : s' = t
      · rw [hst, hst']
      · simp only [hst, if_true, Option.some.injEq, hst', if_false] at hs hs'
        rw [← hs] at hs'
        exact absurd (h.cache_lt hs') (Nat.lt_irrefl _)
      · simp only [hst, if_false, Option.some.injEq, hst', if_true] at hs hs'
        rw [← hs'] at hs
        exact absurd (h.cache_lt hs) (Nat.lt_irrefl _)
      · simp only [hst, hst', if_false] at hs hs'
        exact h.cache_inj s s' x hs hs'
    · intro x hx
      simp only [SimpleArena.addVertex] at hx
      rcases getElem?_snoc_eq_some hx with h1 | ⟨h2, _⟩
      · obtain ⟨s, hs⟩ := h.protA x h1
        exact ⟨s, hmono s x hs⟩
      · refine ⟨t, ?_⟩
        rw [hf, h2, h.len_p]
        simp
    · intro s hs
      rw [hf] at hs
      by_cases hst : s = t
      · simp [hst] at hs
      · simp only [hst, if_false] at hs
        exact h.prog_none s hs
    · intro s x hs
      rw [hf] at hs
      simp only [succ_addVertex]
      by_cases hst : s = t
      · simp only [hst, if_true, Option.some.injEq] at hs
        rw [hst, h.prog_none t hfind, ← hs]
        have : st.game.succ st.nindex = [] := by
          unfold SimpleArena.succ
          rw [List.getD_eq_getElem?_getD, List.getElem?_eq_none (by rw [h.len_s])]
          rfl
        rw [this]
        exact List.Forall₂.nil
      · simp only [hst, if_false] at hs
        refine List.Forall₂.imp ?_ (h.shape s x hs)
        rintro v b ⟨hb1, hb2, pre, hlink, hcur, hother⟩
        refine ⟨getElem?_snoc_of_some _ hb1, getElem?_snoc_of_some _ hb2, pre, ?_, hcur, hother⟩
        simp only [succ_addVertex]
        exact hlink.mono hmono
    · intro x hx
      simp only [SimpleArena.addVertex] at hx
      obtain ⟨s, xa, hs, hmem⟩ := h.protB x (hold hx rfl)
      exact ⟨s, xa, hmono s xa hs, by simpa only [succ_addVertex] using hmem⟩
    · intro x hx
      simp only [SimpleArena.addVertex] at hx
      simp only [occurrences_addVertex]
      exact h.count1 x (hold hx rfl)

theorem succ_openNature {a : SimpleAutomaton} {st : BuildState} {γ : Ghost} (h : Inv a st γ)
    {s xa : Nat} (hs : st.find s = some xa) (x : Nat) :
    (openNature a s st).game.succ x =
      if x = xa then st.game.succ x ++ [st.nindex] else st.game.succ x := by
  have hxa : xa < st.nindex := h.cache_lt hs
  have hv : st.vertexOf s = xa := by simp [BuildState.vertexOf, hs]
  simp only [openNature, hv, succ_addEdge, succ_addVertex]
  have : xa < (st.game.addVertex false (a.priorities s)).successors.length := by
    simp only [SimpleArena.addVertex, List.length_append, h.len_s, List.length_singleton]
    omega
  simp [this]

/-- Creating the class-B vertex of the next valuation of state `s` keeps the invariant;
the record now says that the transition loop of the new vertex has scanned nothing. -/
theorem Inv.afterOpenNature {a : SimpleAutomaton} {st : BuildState} {γ : Ghost} (h : Inv a st γ)
    (hc : γ.Closed a) {s xa : Nat} (hs : st.find s = some xa) (v : BDD) :
    Inv a (openNature a s st)
      ⟨fun s' => if s' = s then γ.prog s ++ [v] else γ.prog s', st.nindex, s, v, []⟩ := by
  have hxa : xa < st.nindex := h.cache_lt hs
  have hE := succ_openNature h hs
  have hfind : ∀ u, (openNature a s st).find u = st.find u := fun _ => rfl
  have hP : (openNature a s st).game.protagonist_vertex = st.game.protagonist_vertex ++ [false] :=
    rfl
  have hQ : (openNature a s st).game.priorities = st.game.priorities ++ [a.priorities s] := rfl
  have hlift : ∀ s' v' b, st.find s' ≠ none → Bv a st γ s' v' b →
      Bv a (openNature a s st)
        ⟨fun s' => if s' = s then γ.prog s ++ [v] else γ.prog s', st.nindex, s, v, []⟩
        s' v' b := by
    rintro s' v' b - ⟨hb1, hb2, pre, hlink, hcur, hother⟩
    have hblt : b < st.nindex := h.classB_lt hb1
    have hbxa : b ≠ xa := by
      rintro rfl
      rw [h.cache_prot s b hs] at hb1
      exact absurd hb1 (by simp)
    have hpre : pre = a.successors s' := by
      by_cases hb : b = γ.b
      · obtain ⟨h1, _, h3⟩ := hcur hb
        rw [h3, h1]
        exact hc
      · exact hother hb
    refine ⟨?_, ?_, pre, ?_, ?_, fun _ => hpre⟩
    · rw [hP]; exact getElem?_snoc_of_some _ hb1
    · rw [hQ]; exact getElem?_snoc_of_some _ hb2
    · rw [hE, if_neg hbxa]
      exact hlink
    · intro hb
      exact absurd hb (Nat.ne_of_lt hblt)
  refine ⟨?_, ?_, ?_, h.keys_nodup, ?_, ?_, ?_, h.cache_dom, h.cache_inj, ?_, ?_, ?_, ?_, ?_⟩
  · rw [hP]; simp [h.len_p, openNature]
  · simp [openNature, SimpleArena.addEdge, SimpleArena.addVertex, List.length_modify, h.len_s]
  · rw [hQ]; simp [h.len_q, openNature]
  · rw [hP]
    simp only [List.count_append]
    have : List.count true [false] = 0 := by decide
    rw [this, Nat.add_zero]
    exact h.cntA
  · intro s' x hs'
    rw [hP]
    exact getElem?_snoc_of_some _ (h.cache_prot s' x hs')
  · intro s' x hs'
    rw [hQ]
    exact getElem?_snoc_of_some _ (h.cache_prio s' x hs')
  · intro x hx
    rw [hP] at hx
    rcases getElem?_snoc_eq_some hx with h1 | ⟨_, h2⟩
    · exact h.protA x h1
    · exact absurd h2 (by simp)
  · intro s' hs'
    have : s' ≠ s := by
      rintro rfl
      rw [hfind, hs] at hs'
      exact absurd hs' (by simp)
    simp only [this, if_false]
    exact h.prog_none s' hs'
  · intro s' x hs'
    have hs'' : st.find s' = some x := hs'
    have hne : st.find s' ≠ none := by rw [hs'']; simp
    rw [hE]
    by_cases hx : x = xa
    · have hss : s' = s := h.cache_inj s' s xa (hx ▸ hs'') hs
      subst hss
      simp only [hx, if_true]
      refine forall₂_snoc (List.Forall₂.imp (fun v' b hb => hlift s' v' b hne hb)
        (hx ▸ h.shape s' x hs'')) ?_
      refine ⟨?_, ?_, [], ?_, fun _ => ⟨rfl, rfl, rfl⟩, fun hb => absurd rfl hb⟩
      · rw [hP, ← h.len_p]; exact getElem?_snoc_length _ _
      · rw [hQ, ← h.len_q]; exact getElem?_snoc_length _ _
      · rw [hE, if_neg (Nat.ne_of_gt hxa)]
        have : st.game.succ st.nindex = [] := by
          unfold SimpleArena.succ
          rw [List.getD_eq_getElem?_getD, List.getElem?_eq_none (by rw [h.len_s])]
          rfl
        rw [this]
        exact List.Forall₂.nil
    · have hss : s' ≠ s := by
        rintro rfl
        rw [hs] at hs''
        exact hx (Option.some.inj hs'').symm
      simp only [hx, hss, if_false]
      exact List.Forall₂.imp (fun v' b hb => hlift s' v' b hne hb) (h.shape s' x hs'')
  · intro x hx
    rw [hP] at hx
    rcases getElem?_snoc_eq_some hx with h1 | ⟨h2, _⟩
    · obtain ⟨s', xa', hs', hmem⟩ := h.protB x h1
      refine ⟨s', xa', hs', ?_⟩
      rw [hE]
      by_cases hx' : xa' = xa
      · simp [hx', hx' ▸ hmem]
      · simp [hx', hmem]
    · refine ⟨s, xa, hs, ?_⟩
      rw [hE, h2, h.len_p]
      simp
  · intro x hx
    rw [hP] at hx
    have hlen : st.vertexOf s < (st.game.addVertex false (a.priorities s)).successors.length := by
      have hv : st.vertexOf s = xa := by simp [BuildState.vertexOf, hs]
      simp only [hv, SimpleArena.addVertex, List.length_append, h.len_s, List.length_singleton]
      omega
    simp only [openNature, occurrences_addEdge, occurrences_addVertex, hlen, true_and]
    rcases getElem?_snoc_eq_some hx with h1 | ⟨h2, _⟩
    · have : x ≠ st.nindex := Nat.ne_of_lt (h.classB_lt h1)
      simp [this, h.count1 x h1]
    · rw [h.len_p] at h2
      simp [h2, h.occurrences_nindex]

/-- Scanning a transition that is not compatible with the valuation keeps the invariant. -/
theorem Inv.afterSkip {a : SimpleAutomaton} {st : BuildState} {γ : Ghost} (h : Inv a st γ)
    {tr : BDD × Nat} (htr : compatible tr.1 γ.v = false) :
    Inv a st ⟨γ.prog, γ.b, γ.s, γ.v, γ.pre ++ [tr]⟩ := by
  refine ⟨h.len_p, h.len_s, h.len_q, h.keys_nodup, h.cntA, h.cache_prot, h.cache_prio,
    h.cache_dom, h.cache_inj, h.protA, h.prog_none, ?_, h.protB, h.count1⟩
  intro s x hs
  refine List.Forall₂.imp ?_ (h.shape s x hs)
  rintro v b ⟨hb1, hb2, pre, hlink, hcur, hother⟩
  by_cases hb : b = γ.b
  · obtain ⟨h1, h2, h3⟩ := hcur hb
    refine ⟨hb1, hb2, γ.pre ++ [tr], ?_, fun _ => ⟨h1, h2, rfl⟩, fun hne => absurd hb hne⟩
    rw [List.filter_append]
    have : List.filter (fun tr => compatible tr.1 v) [tr] = [] := by
      simp [List.filter_cons, h2, htr]
    rw [this, List.append_nil, ← h3]
    exact hlink
  · exact ⟨hb1, hb2, pre, hlink, fun hb' => absurd hb' hb, hother⟩

/-- Adding the edge for a compatible transition keeps the invariant. -/
theorem Inv.afterConnect {a : SimpleAutomaton} {st : BuildState} {γ : Ghost} (h : Inv a st γ)
    (hb : st.game.protagonist_vertex[γ.b]? = some false)
    {tr : BDD × Nat} {w : Nat} (htr : compatible tr.1 γ.v = true)
    (hw : st.find tr.2 = some w) :
    Inv a ⟨st.nindex, st.state2vertex, st.game.addEdge γ.b w⟩
      ⟨γ.prog, γ.b, γ.s, γ.v, γ.pre ++ [tr]⟩ := by
  have hblt : γ.b < st.game.successors.length := by
    rw [h.len_s]; exact h.classB_lt hb
  have hE : ∀ x, (st.game.addEdge γ.b w).succ x =
      if x = γ.b then st.game.succ x ++ [w] else st.game.succ x := by
    intro x
    rw [succ_addEdge]
    simp [hblt]
  have hsub : ∀ x y, y ∈ st.game.succ x → y ∈ (st.game.addEdge γ.b w).succ x := by
    intro x y hy
    rw [hE]
    by_cases hx : x = γ.b
    · simp [hx, hx ▸ hy]
    · simp [hx, hy]
  refine ⟨h.len_p, ?_, h.len_q, h.keys_nodup, h.cntA, h.cache_prot, h.cache_prio,
    h.cache_dom, h.cache_inj, h.protA, h.prog_none, ?_, ?_, ?_⟩
  · simp [SimpleArena.addEdge, List.length_modify, h.len_s]
  · intro s x hs
    have hs' : st.find s = some x := hs
    have hx : x ≠ γ.b := by
      rintro rfl
      rw [h.cache_prot s _ hs'] at hb
      exact absurd hb (by simp)
    show List.Forall₂ _ _ ((st.game.addEdge γ.b w).succ x)
    rw [hE, if_neg hx]
    refine List.Forall₂.imp ?_ (h.shape s x hs')
    rintro v b ⟨hb1, hb2, pre, hlink, hcur, hother⟩
    by_cases hbb : b = γ.b
    · obtain ⟨h1, h2, h3⟩ := hcur hbb
      refine ⟨hb1, hb2, γ.pre ++ [tr], ?_, fun _ => ⟨h1, h2, rfl⟩, fun hne => absurd hbb hne⟩
      show Linked _ _ ((st.game.addEdge γ.b w).succ b)
      rw [hE, if_pos hbb, List.filter_append]
      have : List.filter (fun tr => compatible tr.1 v) [tr] = [tr] := by
        simp [List.filter_cons, h2, htr]
      rw [this, ← h3]
      exact forall₂_snoc hlink hw
    · refine ⟨hb1, hb2, pre, ?_, fun hb' => absurd hb' hbb, hother⟩
      show Linked _ _ ((st.game.addEdge γ.b w).succ b)
      rw [hE, if_neg hbb]
      exact hlink
  · intro x hx
    obtain ⟨s, xa, hs, hmem⟩ := h.protB x hx
    exact ⟨s, xa, hs, hsub _ _ hmem⟩
  · intro x hx
    have hxw : x ≠ w := by
      rintro rfl
      have hx' : st.game.protagonist_vertex[x]? = some false := hx
      rw [h.cache_prot _ _ hw] at hx'
      exact absurd hx' (by simp)
    show (st.game.addEdge γ.b w).occurrences x = 1
    rw [occurrences_addEdge]
    simp only [hxw, and_false, if_false, Nat.add_zero]
    exact h.count1 x hx

/-! ### Monotonicity: the cache and the vertex classes are only ever extended -/

theorem Extends.refl (st : BuildState) : Extends st st :=
  ⟨fun _ _ h => h, fun _ _ h => h⟩

theorem Extends.trans {st₁ st₂ st₃ : BuildState} (h₁ : Extends st₁ st₂) (h₂ : Extends st₂ st₃) :
    Extends st₁ st₃ :=
  ⟨fun u w h => h₂.1 u w (h₁.1 u w h), fun x c h => h₂.2 x c (h₁.2 x c h)⟩

theorem extends_ensureState (a : SimpleAutomaton) (st : BuildState) (t : Nat) :
    Extends st (ensureState a st t) := by
  cases hfind : st.find t with
  | some x => rw [ensureState_present a hfind]; exact Extends.refl st
  | none =>
    rw [ensureState_absent a hfind]
    refine ⟨?_, ?_⟩
    · intro u w hu
      have : u ≠ t := by
        rintro rfl
        rw [hfind] at hu
        exact absurd hu (by simp)
      simpa only [BuildState.find, lookup_cons_nat, this, if_false] using hu
    · intro x c hx
      exact getElem?_snoc_of_some _ hx

theorem ensureState_find_self (a : SimpleAutomaton) (st : BuildState) (t : Nat) :
    ∃ w, (ensureState a st t).find t = some w := by
  cases hfind : st.find t with
  | some x => rw [ensureState_present a hfind]; exact ⟨x, hfind⟩
  | none =>
    rw [ensureState_absent a hfind]
    exact ⟨st.nindex, by simp [BuildState.find, lookup_cons_nat]⟩

theorem extends_openNature (a : SimpleAutomaton) (s : Nat) (st : BuildState) :
    Extends st (openNature a s st) :=
  ⟨fun _ _ h => h, fun _ _ hx => getElem?_snoc_of_some _ hx⟩

theorem extends_succStep (a : SimpleAutomaton) (v : BDD) (b : Nat) (acc : BuildState × Bool)
    (tr : BDD × Nat) : Extends acc.1 (succStep a v b acc tr).1 := by
  unfold succStep
  by_cases h : compatible tr.1 v = true
  · simp only [h, Bool.not_true, Bool.false_eq_true, if_false]
    have := extends_ensureState a acc.1 tr.2
    exact ⟨fun u w hu => this.1 u w hu, fun x c hx => this.2 x c hx⟩
  · simp only [Bool.not_eq_true] at h
    simp only [h, Bool.not_false, if_true]
    exact Extends.refl _

theorem extends_succLoop (a : SimpleAutomaton) (v : BDD) (b : Nat) (trs : List (BDD × Nat))
    (acc : BuildState × Bool) : Extends acc.1 (trs.foldl (succStep a v b) acc).1 := by
  induction trs generalizing acc with
  | nil => exact Extends.refl _
  | cons tr trs ih =>
    rw [List.foldl_cons]
    exact (extends_succStep a v b acc tr).trans (ih _)

/-! ### The invariant along the three loops -/

theorem Inv.afterSuccStep {a : SimpleAutomaton} {acc : BuildState × Bool} {γ : Ghost}
    (h : Inv a acc.1 γ) (hb : acc.1.game.protagonist_vertex[γ.b]? = some false)
    {tr : BDD × Nat} (htr : tr.2 < a.numStates) :
    Inv a (succStep a γ.v γ.b acc tr).1 ⟨γ.prog, γ.b, γ.s, γ.v, γ.pre ++ [tr]⟩ := by
  unfold succStep
  by_cases hcomp : compatible tr.1 γ.v = true
  · simp only [hcomp, Bool.not_true, Bool.false_eq_true, if_false]
    have h1 : Inv a (ensureState a acc.1 tr.2) γ := h.afterEnsureState htr
    have hb1 := (extends_ensureState a acc.1 tr.2).2 _ _ hb
    obtain ⟨w, hw⟩ := ensureState_find_self a acc.1 tr.2
    have hv : (ensureState a acc.1 tr.2).vertexOf tr.2 = w := by
      simp [BuildState.vertexOf, hw]
    rw [hv]
    exact h1.afterConnect hb1 hcomp hw
  · simp only [Bool.not_eq_true] at hcomp
    simp only [hcomp, Bool.not_false, if_true]
    exact h.afterSkip hcomp

theorem Inv.afterSuccLoop {a : SimpleAutomaton} (trs : List (BDD × Nat)) :
    ∀ (acc : BuildState × Bool) (γ : Ghost), Inv a acc.1 γ →
      acc.1.game.protagonist_vertex[γ.b]? = some false →
      (∀ tr ∈ trs, tr.2 < a.numStates) →
      Inv a (trs.foldl (succStep a γ.v γ.b) acc).1 ⟨γ.prog, γ.b, γ.s, γ.v, γ.pre ++ trs⟩ := by
  induction trs with
  | nil =>
    intro acc γ h _ _
    simpa using h
  | cons tr trs ih =>
    intro acc γ h hb htgt
    rw [List.foldl_cons]
    have h1 := h.afterSuccStep hb (htgt tr (List.mem_cons_self _ _))
    have hb1 := (extends_succStep a γ.v γ.b acc tr).2 _ _ hb
    have h2 := ih (succStep a γ.v γ.b acc tr) ⟨γ.prog, γ.b, γ.s, γ.v, γ.pre ++ [tr]⟩ h1 hb1
      (fun tr' htr' => htgt tr' (List.mem_cons_of_mem _ htr'))
    simpa only [List.append_assoc, List.singleton_append] using h2

theorem extends_valStep {a : SimpleAutomaton} {s : Nat} {st st' : BuildState} {v : BDD}
    (hv : valStep a s st v = some st') : Extends st st' := by
  unfold valStep at hv
  by_cases hflag : ((a.successors s).foldl (succStep a v st.nindex) (openNature a s st, false)).2
      = true
  · simp only [hflag, if_true, Option.some.injEq] at hv
    rw [← hv]
    exact (extends_openNature a s st).trans
      (extends_succLoop a v st.nindex (a.successors s) (openNature a s st, false))
  · simp [hflag] at hv

/-- One valuation of the current state keeps the invariant and records the valuation. -/
theorem Inv.afterValStep {a : SimpleAutomaton} {st st' : BuildState} {γ : Ghost}
    (h : Inv a st γ) (hc : γ.Closed a) {s xa : Nat} (hs : st.find s = some xa)
    (htgt : ∀ tr ∈ a.successors s, tr.2 < a.numStates) {v : BDD}
    (hv : valStep a s st v = some st') :
    ∃ γ', Inv a st' γ' ∧ γ'.Closed a ∧
      ∀ s', γ'.prog s' = if s' = s then γ.prog s ++ [v] else γ.prog s' := by
  have h1 := h.afterOpenNature hc hs v
  have hb : (openNature a s st).game.protagonist_vertex[st.nindex]? = some false := by
    show (st.game.protagonist_vertex ++ [false])[st.nindex]? = some false
    rw [← h.len_p]
    exact getElem?_snoc_length _ _
  have h2 := Inv.afterSuccLoop (a.successors s) (openNature a s st, false)
    ⟨fun s' => if s' = s then γ.prog s ++ [v] else γ.prog s', st.nindex, s, v, []⟩ h1 hb htgt
  unfold valStep at hv
  by_cases hflag : ((a.successors s).foldl (succStep a v st.nindex) (openNature a s st, false)).2
      = true
  · simp only [hflag, if_true, Option.some.injEq] at hv
    rw [← hv]
    exact ⟨_, h2, by simp [Ghost.Closed], fun _ => rfl⟩
  · simp [hflag] at hv

theorem extends_valLoop {a : SimpleAutomaton} {s : Nat} (vs : List BDD) :
    ∀ {st st' : BuildState}, valLoop a s vs st = some st' → Extends st st' := by
  induction vs with
  | nil =>
    intro st st' h
    simp only [valLoop, Option.some.injEq] at h
    rw [h]
    exact Extends.refl _
  | cons v vs ih =>
    intro st st' h
    unfold valLoop at h
    cases hstep : valStep a s st v with
    | none => rw [hstep] at h; simp at h
    | some st₁ =>
      rw [hstep] at h
      exact (extends_valStep hstep).trans (ih h)

/-- The loop over the valuations keeps the invariant and records the valuations. -/
theorem Inv.afterValLoop {a : SimpleAutomaton} {s xa : Nat}
    (htgt : ∀ tr ∈ a.successors s, tr.2 < a.numStates) (vs : List BDD) :
    ∀ {st st' : BuildState} {γ : Ghost}, Inv a st γ → γ.Closed a → st.find s = some xa →
      valLoop a s vs st = some st' →
      ∃ γ', Inv a st' γ' ∧ γ'.Closed a ∧
        ∀ s', γ'.prog s' = if s' = s then γ.prog s ++ vs else γ.prog s' := by
  induction vs with
  | nil =>
    intro st st' γ h hc _ hl
    simp only [valLoop, Option.some.injEq] at hl
    rw [← hl]
    refine ⟨γ, h, hc, fun s' => ?_⟩
    by_cases hs' : s' = s
    · simp [hs']
    · simp [hs']
  | cons v vs ih =>
    intro st st' γ h hc hs hl
    unfold valLoop at hl
    cases hstep : valStep a s st v with
    | none => rw [hstep] at hl; simp at hl
    | some st₁ =>
      rw [hstep] at hl
      obtain ⟨γ₁, h₁, hc₁, hp₁⟩ := h.afterValStep hc hs htgt hstep
      obtain ⟨γ₂, h₂, hc₂, hp₂⟩ := ih h₁ hc₁ ((extends_valStep hstep).1 _ _ hs) hl
      refine ⟨γ₂, h₂, hc₂, fun s' => ?_⟩
      rw [hp₂, hp₁ s, hp₁ s']
      by_cases hs' : s' = s
      · simp [hs']
      · simp [hs']

theorem extends_stateStep {a : SimpleAutomaton} {vs : List BDD} {s : Nat}
    {st st' : BuildState} (h : stateStep a vs st s = some st') : Extends st st' :=
  (extends_ensureState a st s).trans (extends_valLoop vs h)

theorem extends_stateLoop {a : SimpleAutomaton} {vs : List BDD} (l : List Nat) :
    ∀ {st st' : BuildState}, stateLoop a vs l st = some st' → Extends st st' := by
  induction l with
  | nil =>
    intro st st' h
    simp only [stateLoop, Option.some.injEq] at h
    rw [h]
    exact Extends.refl _
  | cons s l ih =>
    intro st st' h
    unfold stateLoop at h
    cases hstep : stateStep a vs st s with
    | none => rw [hstep] at h; simp at h
    | some st₁ =>
      rw [hstep] at h
      exact (extends_stateStep hstep).trans (ih h)

/-- The loop over the states keeps the invariant; afterwards every state of the list has a
class-A vertex and all the valuations are recorded for it. -/
theorem Inv.afterStateLoop {a : SimpleAutomaton} {vs : List BDD}
    (htgt : ∀ s < a.numStates, ∀ tr ∈ a.successors s, tr.2 < a.numStates) (l : List Nat) :
    ∀ {st st' : BuildState} {γ : Ghost}, Inv a st γ → γ.Closed a →
      (∀ s ∈ l, s < a.numStates) → l.Nodup → (∀ s ∈ l, γ.prog s = []) →
      stateLoop a vs l st = some st' →
      ∃ γ', Inv a st' γ' ∧ γ'.Closed a ∧
        (∀ s', γ'.prog s' = if s' ∈ l then vs else γ.prog s') ∧
        ∀ s ∈ l, ∃ x, st'.find s = some x := by
  induction l with
  | nil =>
    intro st st' γ h hc _ _ _ hl
    simp only [stateLoop, Option.some.injEq] at hl
    rw [← hl]
    exact ⟨γ, h, hc, fun s' => by simp, fun s hs => by simp at hs⟩
  | cons s l ih =>
    intro st st' γ h hc hlt hnd hprog hl
    unfold stateLoop at hl
    cases hstep : stateStep a vs st s with
    | none => rw [hstep] at hl; simp at hl
    | some st₁ =>
      rw [hstep] at hl
      have hs : s < a.numStates := hlt s (List.mem_cons_self _ _)
      obtain ⟨xa, hxa⟩ := ensureState_find_self a st s
      obtain ⟨γ₁, h₁, hc₁, hp₁⟩ :=
        Inv.afterValLoop (htgt s hs) vs (h.afterEnsureState hs) hc hxa hstep
      have hnd' := List.nodup_cons.1 hnd
      obtain ⟨γ₂, h₂, hc₂, hp₂, hall⟩ := ih h₁ hc₁
        (fun t ht => hlt t (List.mem_cons_of_mem _ ht)) hnd'.2
        (fun t ht => by
          rw [hp₁]
          have : t ≠ s := by rintro rfl; exact hnd'.1 ht
          simp only [this, if_false]
          exact hprog t (List.mem_cons_of_mem _ ht)) hl
      refine ⟨γ₂, h₂, hc₂, fun s' => ?_, fun t ht => ?_⟩
      · rw [hp₂, hp₁]
        by_cases hs' : s' = s
        · subst hs'
          simp [hnd'.1, hprog s' (List.mem_cons_self _ _)]
        · simp [hs']
      · rcases List.mem_cons.1 ht with rfl | ht
        · exact ⟨xa, (extends_stateLoop l hl).1 _ _ ((extends_valLoop vs hstep).1 _ _ hxa)⟩
        · exact hall t ht

theorem build_built {a : SimpleAutomaton} {vs : List BDD} {st : BuildState}
    (htgt : ∀ s < a.numStates, ∀ tr ∈ a.successors s, tr.2 < a.numStates)
    (h : build a vs = some st) : Built a vs st := by
  obtain ⟨γ, hinv, hc, hp, hall⟩ := Inv.afterStateLoop htgt (List.range a.numStates)
    (Inv.init a ⟨fun _ => [], 0, 0, BDD.bddOne, a.successors 0⟩ (fun _ => rfl)) rfl
    (fun s hs => List.mem_range.1 hs) (List.nodup_range _) (fun _ _ => rfl) h
  refine ⟨⟨γ, hinv, hc, fun s => ?_⟩, fun s hs => hall s (List.mem_range.2 hs)⟩
  rw [hp]
  simp [List.mem_range]

/-! ### The final state -/

theorem Linked.eq_map {st : BuildState} {trs : List (BDD × Nat)} {ws : List Nat}
    (h : Linked st trs ws) : ws = trs.map fun tr => st.vertexOf tr.2 := by
  induction h with
  | nil => rfl
  | cons hab _ ih =>
    rw [List.map_cons, ← ih]
    simp [BuildState.vertexOf, hab]

theorem Bv.final {a : SimpleAutomaton} {st : BuildState} {γ : Ghost} (hc : γ.Closed a)
    {s : Nat} {v : BDD} {b : Nat} (h : Bv a st γ s v b) : NatureOf a st s v b := by
  obtain ⟨hb1, hb2, pre, hlink, hcur, hother⟩ := h
  have hpre : pre = a.successors s := by
    by_cases hb : b = γ.b
    · obtain ⟨h1, _, h3⟩ := hcur hb
      rw [h3, h1]
      exact hc
    · exact hother hb
  rw [hpre] at hlink
  exact ⟨hb1, hb2, hlink.eq_map⟩

theorem Built.lengths {a : SimpleAutomaton} {vs : List BDD} {st : BuildState}
    (hB : Built a vs st) :
    st.game.protagonist_vertex.length = st.nindex ∧ st.game.successors.length = st.nindex ∧
      st.game.priorities.length = st.nindex := by
  obtain ⟨γ, h, _, _⟩ := hB.ghost
  exact ⟨h.len_p, h.len_s, h.len_q⟩

/-- The class-A vertex of a declared state and its successors. -/
theorem Built.expanded {a : SimpleAutomaton} {vs : List BDD} {st : BuildState}
    (hB : Built a vs st) {s : Nat} (hs : s < a.numStates) :
    st.find s = some (st.vertexOf s) ∧
    st.game.protagonist_vertex[st.vertexOf s]? = some true ∧
    st.game.priorities[st.vertexOf s]? = some (a.priorities s) ∧
    List.Forall₂ (NatureOf a st s) vs (st.game.succ (st.vertexOf s)) := by
  obtain ⟨γ, h, hc, hp⟩ := hB.ghost
  obtain ⟨xa, hxa⟩ := hB.cached s hs
  have hv : st.vertexOf s = xa := by simp [BuildState.vertexOf, hxa]
  rw [hv]
  refine ⟨hxa, h.cache_prot s xa hxa, h.cache_prio s xa hxa, ?_⟩
  have := h.shape s xa hxa
  rw [hp, if_pos hs] at this
  exact List.Forall₂.imp (fun v b hb => hb.final hc) this

/-- Every class-A vertex is the vertex of a declared state. -/
theorem Built.classA {a : SimpleAutomaton} {vs : List BDD} {st : BuildState}
    (hB : Built a vs st) {x : Nat} (hx : st.game.protagonist_vertex[x]? = some true) :
    ∃ s < a.numStates, st.vertexOf s = x := by
  obtain ⟨γ, h, _, _⟩ := hB.ghost
  obtain ⟨s, hs⟩ := h.protA x hx
  exact ⟨s, h.cache_dom s x hs, by simp [BuildState.vertexOf, hs]⟩

/-- Every class-B vertex is a successor of the class-A vertex of a declared state, for
one of the valuations, and occurs once in the successor lists of the arena. -/
theorem Built.classB {a : SimpleAutomaton} {vs : List BDD} {st : BuildState}
    (hB : Built a vs st) {x : Nat} (hx : st.game.protagonist_vertex[x]? = some false) :
    ∃ s < a.numStates, ∃ v ∈ vs, x ∈ st.game.succ (st.vertexOf s) ∧ NatureOf a st s v x ∧
      st.game.occurrences x = 1 := by
  obtain ⟨γ, h, hc, hp⟩ := hB.ghost
  obtain ⟨s, xa, v, hs, hmem, hv, hbv⟩ := h.owner hx
  have hlt : s < a.numStates := h.cache_dom s xa hs
  rw [hp, if_pos hlt] at hv
  have hvx : st.vertexOf s = xa := by simp [BuildState.vertexOf, hs]
  exact ⟨s, hlt, v, hv, hvx ▸ hmem, hbv.final hc, h.count1 x hx⟩

/-- Distinct declared states have distinct class-A vertices. -/
theorem Built.inj {a : SimpleAutomaton} {vs : List BDD} {st : BuildState}
    (hB : Built a vs st) {s s' : Nat} (hs : s < a.numStates) (hs' : s' < a.numStates)
    (heq : st.vertexOf s = st.vertexOf s') : s = s' := by
  obtain ⟨γ, h, _, _⟩ := hB.ghost
  have h1 := (hB.expanded hs).1
  have h2 := (hB.expanded hs').1
  rw [heq] at h1
  exact h.cache_inj s s' _ h1 h2

/-- There are as many class-A vertices as declared states. -/
theorem Built.count_classA {a : SimpleAutomaton} {vs : List BDD} {st : BuildState}
    (hB : Built a vs st) : st.game.protagonist_vertex.count true = a.numStates := by
  obtain ⟨γ, h, _, _⟩ := hB.ghost
  rw [h.cntA, ← List.length_map st.state2vertex Prod.fst, ← List.length_range a.numStates]
  apply List.Perm.length_eq
  rw [List.perm_ext_iff_of_nodup h.keys_nodup (List.nodup_range _)]
  intro s
  rw [List.mem_range]
  constructor
  · intro hs
    obtain ⟨x, hx⟩ := lookup_isSome_of_mem_keys s _ hs
    exact h.cache_dom s x hx
  · intro hs
    obtain ⟨x, hx⟩ := hB.cached s hs
    exact mem_keys_of_lookup s x _ hx

/-- Every vertex of the final arena has a class. -/
theorem vertex_class (g : SimpleArena) {x : Nat} (hx : x < g.protagonist_vertex.length) :
    g.protagonist_vertex[x]? = some true ∨ g.protagonist_vertex[x]? = some false := by
  rw [List.getElem?_eq_getElem hx]
  cases g.protagonist_vertex[x] <;> simp

/-! ### Counting the class-B vertices -/

theorem natureCount_ensureState (a : SimpleAutomaton) (st : BuildState) (t : Nat) :
    (ensureState a st t).natureCount = st.natureCount := by
  cases hfind : st.find t with
  | some x => rw [ensureState_present a hfind]
  | none =>
    rw [ensureState_absent a hfind]
    simp [BuildState.natureCount, SimpleArena.addVertex]

theorem natureCount_openNature (a : SimpleAutomaton) (s : Nat) (st : BuildState) :
    (openNature a s st).natureCount = st.natureCount + 1 := by
  simp [BuildState.natureCount, openNature, SimpleArena.addVertex, SimpleArena.addEdge]

theorem natureCount_succStep (a : SimpleAutomaton) (v : BDD) (b : Nat)
    (acc : BuildState × Bool) (tr : BDD × Nat) :
    (succStep a v b acc tr).1.natureCount = acc.1.natureCount := by
  unfold succStep
  by_cases h : compatible tr.1 v = true
  · simp only [h, Bool.not_true, Bool.false_eq_true, if_false]
    exact natureCount_ensureState a acc.1 tr.2
  · simp only [Bool.not_eq_true] at h
    simp only [h, Bool.not_false, if_true]

theorem natureCount_succLoop (a : SimpleAutomaton) (v : BDD) (b : Nat)
    (trs : List (BDD × Nat)) (acc : BuildState × Bool) :
    (trs.foldl (succStep a v b) acc).1.natureCount = acc.1.natureCount := by
  induction trs generalizing acc with
  | nil => rfl
  | cons tr trs ih => rw [List.foldl_cons, ih, natureCount_succStep]

theorem natureCount_valStep {a : SimpleAutomaton} {s : Nat} {st st' : BuildState} {v : BDD}
    (hv : valStep a s st v = some st') : st'.natureCount = st.natureCount + 1 := by
  unfold valStep at hv
  by_cases hflag : ((a.successors s).foldl (succStep a v st.nindex) (openNature a s st, false)).2
      = true
  · simp only [hflag, if_true, Option.some.injEq] at hv
    rw [← hv, natureCount_succLoop, natureCount_openNature]
  · simp [hflag] at hv

theorem natureCount_valLoop {a : SimpleAutomaton} {s : Nat} (vs : List BDD) :
    ∀ {st st' : BuildState}, valLoop a s vs st = some st' →
      st'.natureCount = st.natureCount + vs.length := by
  induction vs with
  | nil =>
    intro st st' h
    simp only [valLoop, Option.some.injEq] at h
    simp [h]
  | cons v vs ih =>
    intro st st' h
    unfold valLoop at h
    cases hstep : valStep a s st v with
    | none => rw [hstep] at h; simp at h
    | some st₁ =>
      rw [hstep] at h
      rw [ih h, natureCount_valStep hstep, List.length_cons]
      omega

theorem natureCount_stateLoop {a : SimpleAutomaton} {vs : List BDD} (l : List Nat) :
    ∀ {st st' : BuildState}, stateLoop a vs l st = some st' →
      st'.natureCount = st.natureCount + l.length * vs.length := by
  induction l with
  | nil =>
    intro st st' h
    simp only [stateLoop, Option.some.injEq] at h
    simp [h]
  | cons s l ih =>
    intro st st' h
    unfold stateLoop at h
    cases hstep : stateStep a vs st s with
    | none => rw [hstep] at h; simp at h
    | some st₁ =>
      rw [hstep] at h
      unfold stateStep at hstep
      rw [ih h, natureCount_valLoop vs hstep, natureCount_ensureState, List.length_cons,
        Nat.succ_mul]
      omega

/-- The construction creates one class-B vertex per state and valuation. -/
theorem build_natureCount {a : SimpleAutomaton} {vs : List BDD} {st : BuildState}
    (h : build a vs = some st) :
    st.game.protagonist_vertex.count false = a.numStates * vs.length := by
  have := natureCount_stateLoop (List.range a.numStates) h
  simpa [BuildState.natureCount, BuildState.init] using this

/-! ### Consequences for the final arena -/

theorem build_of_gameBuilder {a : SimpleAutomaton} {vs : List BDD} {g : SimpleArena}
    (h : gameBuilder a vs = some g) : ∃ st, build a vs = some st ∧ st.game = g := by
  unfold gameBuilder at h
  cases hb : build a vs with
  | none => rw [hb] at h; simp at h
  | some st =>
    rw [hb] at h
    exact ⟨st, rfl, by simpa using h⟩

theorem forall₂_getElem? {α β : Type} {R : α → β → Prop} {l₁ : List α} {l₂ : List β}
    (h : List.Forall₂ R l₁ l₂) {j : Nat} {x : α} {y : β} (hx : l₁[j]? = some x)
    (hy : l₂[j]? = some y) : R x y := by
  induction h generalizing j with
  | nil => simp at hx
  | cons hab _ ih =>
    cases j with
    | zero =>
      simp only [List.getElem?_cons_zero, Option.some.injEq] at hx hy
      rw [← hx, ← hy]
      exact hab
    | succ j =>
      simp only [List.getElem?_cons_succ] at hx hy
      exact ih hx hy

theorem mem_iff_getElem?_lt {l : List Nat} {x : Nat} (h : x ∈ l) :
    ∃ j < l.length, l[j]? = some x := by
  obtain ⟨j, hj, hx⟩ := List.getElem_of_mem h
  exact ⟨j, hj, by rw [List.getElem?_eq_getElem hj, hx]⟩

/-- Every class-B vertex of a successful construction has a successor. -/
theorem Built.nature_succ_ne_nil {a : SimpleAutomaton} {vs : List BDD} {st : BuildState}
    (hb : build a vs = some st) {s : Nat} (hs : s < a.numStates) {v : BDD} (hv : v ∈ vs)
    {x : Nat} (hx : NatureOf a st s v x) : 1 ≤ (st.game.succ x).length := by
  have hsome : (build a vs).isSome = true := by rw [hb]; rfl
  obtain ⟨tr, htr, hcomp⟩ := (build_isSome_iff a vs).1 hsome s hs v hv
  rw [hx.2.2, List.length_map]
  exact List.length_pos_of_mem (List.mem_filter.2 ⟨htr, by simpa using hcomp⟩)

/-- The out-degrees in the final arena: one successor per valuation for a class-A vertex,
at least one successor for a class-B vertex. -/
theorem Built.out_degree {a : SimpleAutomaton} {vs : List BDD} {st : BuildState}
    (hB : Built a vs st) (hb : build a vs = some st) (x : Nat) :
    (st.game.protagonist_vertex[x]? = some true → (st.game.succ x).length = vs.length) ∧
    (st.game.protagonist_vertex[x]? = some false → 1 ≤ (st.game.succ x).length) := by
  constructor
  · intro hx
    obtain ⟨s, hs, rfl⟩ := hB.classA hx
    exact (hB.expanded hs).2.2.2.length_eq.symm
  · intro hx
    obtain ⟨s, hs, v, hv, _, hnat, _⟩ := hB.classB hx
    exact Built.nature_succ_ne_nil hb hs hv hnat

theorem two_counts_le_sum (x : Nat) (l : List (List Nat)) :
    ∀ u u', u ≠ u' → (l.getD u []).count x + (l.getD u' []).count x ≤
      (l.map (List.count x)).sum := by
  induction l with
  | nil => intro u u' _; simp
  | cons r l ih =>
    intro u u' hne
    have hone : ∀ k, (l.getD k []).count x ≤ (l.map (List.count x)).sum := fun k =>
      count_le_occurrences ⟨[], l, []⟩ k x
    cases u with
    | zero =>
      cases u' with
      | zero => exact absurd rfl hne
      | succ k =>
        simp only [List.getD_cons_zero, List.getD_cons_succ, List.map_cons, List.sum_cons]
        exact Nat.add_le_add_left (hone k) _
    | succ k =>
      cases u' with
      | zero =>
        simp only [List.getD_cons_zero, List.getD_cons_succ, List.map_cons, List.sum_cons]
        have := hone k
        omega
      | succ k' =>
        simp only [List.getD_cons_succ, List.map_cons, List.sum_cons]
        have := ih k k' (fun h => hne (by rw [h]))
        omega

theorem count_eq_one_index_unique {l : List Nat} {x : Nat} (h : l.count x = 1) :
    ∀ {j j' : Nat}, l[j]? = some x → l[j']? = some x → j = j' := by
  induction l with
  | nil => simp at h
  | cons r l ih =>
    intro j j' hj hj'
    rw [List.count_cons] at h
    have hzero : r = x → ∀ k : Nat, l[k]? ≠ some x := by
      intro hr k hk
      have hmem : x ∈ l := List.getElem?_mem hk
      have := List.count_pos_iff.2 hmem
      simp only [hr, beq_self_eq_true, if_true] at h
      omega
    cases j with
    | zero =>
      cases j' with
      | zero => rfl
      | succ k' =>
        simp only [List.getElem?_cons_zero, Option.some.injEq, List.getElem?_cons_succ] at hj hj'
        exact absurd hj' (hzero hj k')
    | succ k =>
      simp only [List.getElem?_cons_succ] at hj
      cases j' with
      | zero =>
        simp only [List.getElem?_cons_zero, Option.some.injEq] at hj'
        exact absurd hj (hzero hj' k)
      | succ k' =>
        simp only [List.getElem?_cons_succ] at hj'
        by_cases hr : r = x
        · exact absurd hj (hzero hr k)
        · have hb : (r == x) = false := by simpa using hr
          simp only [hb, Bool.false_eq_true, if_false, Nat.add_zero] at h
          rw [ih h hj hj']

/-! ## A worked example -/

theorem example_targets :
    ∀ s < exampleAutomaton.numStates, ∀ tr ∈ exampleAutomaton.successors s,
      tr.2 < exampleAutomaton.numStates := by
  decide

theorem example_build : build exampleAutomaton exampleVals = some exampleState := by
  decide

theorem example_enumerate : enumerate 3 exampleAutomaton.uinputs = some exampleVals := by
  decide

/-! ## The claims about Step 2 -/

/-- C2: when all transition targets are declared states and the construction succeeds with
final state `st`, then for every declared state `s` the vertex `st.vertexOf s` is a class-A
vertex with exactly one successor per valuation, the `j`-th successor is a class-B vertex,
and the successor list of that class-B vertex is the list, in transition order and with
repetitions, of the class-A vertices of the targets of the transitions of `s` whose guard
is compatible with the `j`-th valuation.  Every vertex of the arena is one of these
class-A or class-B vertices, so there are no other edges. -/
theorem gameBuilder_edges (a : SimpleAutomaton) (vals : List BDD) (st : BuildState)
    (htgt : ∀ s < a.numStates, ∀ tr ∈ a.successors s, tr.2 < a.numStates)
    (hb : build a vals = some st) :
    gameBuilder a vals = some st.game ∧
    (∀ s < a.numStates,
      st.game.protagonist_vertex[st.vertexOf s]? = some true ∧
      (st.game.succ (st.vertexOf s)).length = vals.length ∧
      ∀ (j : Nat) (v : BDD) (b : Nat), vals[j]? = some v →
        (st.game.succ (st.vertexOf s))[j]? = some b →
        st.game.protagonist_vertex[b]? = some false ∧
        st.game.succ b =
          ((a.successors s).filter fun tr => compatible tr.1 v).map fun tr =>
            st.vertexOf tr.2) ∧
    (∀ x < st.game.protagonist_vertex.length,
      (∃ s < a.numStates, x = st.vertexOf s) ∨
      ∃ s < a.numStates, ∃ j < vals.length, (st.game.succ (st.vertexOf s))[j]? = some x) := by
  have hB := build_built htgt hb
  refine ⟨by simp [gameBuilder, hb], ?_, ?_⟩
  · intro s hs
    obtain ⟨_, hA, _, hshape⟩ := hB.expanded hs
    refine ⟨hA, hshape.length_eq.symm, ?_⟩
    intro j v b hv hbj
    have := forall₂_getElem? hshape hv hbj
    exact ⟨this.1, this.2.2⟩
  · intro x hx
    rcases vertex_class st.game hx with hA | hBx
    · obtain ⟨s, hs, hv⟩ := hB.classA hA
      exact Or.inl ⟨s, hs, hv.symm⟩
    · obtain ⟨s, hs, v, _, hmem, _, _⟩ := hB.classB hBx
      obtain ⟨j, hj, hjx⟩ := mem_iff_getElem?_lt hmem
      have hlen := (hB.expanded hs).2.2.2.length_eq
      exact Or.inr ⟨s, hs, j, by omega, hjx⟩

/-- C2 on the worked example: the successors of the class-A vertex of state 0 are the
vertices 1 and 3, and vertex 3 (second valuation) leads twice to the vertex of state 2. -/
theorem gameBuilder_edges_witness :
    (∀ s < exampleAutomaton.numStates, ∀ tr ∈ exampleAutomaton.successors s,
      tr.2 < exampleAutomaton.numStates) ∧
    build exampleAutomaton exampleVals = some exampleState ∧
    exampleState.game.succ 3 = [2, 2] :=
  ⟨example_targets, example_build,
    ((gameBuilder_edges exampleAutomaton exampleVals exampleState example_targets
      example_build).2.1 0 (by decide)).2.2 1 (BDD.and BDD.bddOne (BDD.bddVar 0)) 3 rfl rfl
      |>.2⟩

/-- C3: the construction fails (the check `atleastone` fires) exactly when some declared
state has, for some valuation of the sequence, no transition whose guard is compatible
with it; otherwise it returns an arena.  In particular a declared state without
transitions makes it fail as soon as there is a valuation. -/
theorem gameBuilder_fails_iff (a : SimpleAutomaton) (vals : List BDD) :
    (gameBuilder a vals = none ↔
      ∃ s < a.numStates, ∃ v ∈ vals, ∀ tr ∈ a.successors s, compatible tr.1 v = false) ∧
    ((¬ ∃ s < a.numStates, ∃ v ∈ vals, ∀ tr ∈ a.successors s, compatible tr.1 v = false) →
      ∃ g, gameBuilder a vals = some g) ∧
    (∀ s < a.numStates, a.successors s = [] → vals ≠ [] → gameBuilder a vals = none) := by
  have key : gameBuilder a vals = none ↔
      ∃ s < a.numStates, ∃ v ∈ vals, ∀ tr ∈ a.successors s, compatible tr.1 v = false := by
    have h1 : gameBuilder a vals = none ↔ ¬ ((build a vals).isSome = true) := by
      unfold gameBuilder
      cases build a vals <;> simp
    rw [h1, build_isSome_iff]
    constructor
    · intro h
      by_contra hne
      apply h
      intro s hs v hv
      by_contra hno
      apply hne
      refine ⟨s, hs, v, hv, fun tr htr => ?_⟩
      cases hc : compatible tr.1 v with
      | false => rfl
      | true => exact absurd ⟨tr, htr, hc⟩ hno
    · rintro ⟨s, hs, v, hv, hall⟩ h
      obtain ⟨tr, htr, hc⟩ := h s hs v hv
      rw [hall tr htr] at hc
      exact absurd hc (by simp)
  refine ⟨key, ?_, ?_⟩
  · intro h
    cases hg : gameBuilder a vals with
    | none => exact absurd (key.1 hg) h
    | some g => exact ⟨g, rfl⟩
  · intro s hs hnil hvals
    rw [key]
    obtain ⟨v, hv⟩ := List.exists_mem_of_ne_nil vals hvals
    exact ⟨s, hs, v, hv, fun tr htr => by rw [hnil] at htr; simp at htr⟩

/-- C4: with `S` declared states, all transition targets declared, `2^k` valuations and a
compatible transition for every state and valuation, the construction returns an arena
with exactly `S` class-A vertices, `S * 2^k` class-B vertices and `S * (1 + 2^k)` vertices
in all. -/
theorem gameBuilder_vertex_count (a : SimpleAutomaton) (vals : List BDD) (k : Nat)
    (htgt : ∀ s < a.numStates, ∀ tr ∈ a.successors s, tr.2 < a.numStates)
    (hlen : vals.length = 2 ^ k)
    (hcomp : ∀ s < a.numStates, ∀ v ∈ vals, ∃ tr ∈ a.successors s, compatible tr.1 v = true) :
    ∃ g, gameBuilder a vals = some g ∧
      g.protagonist_vertex.count true = a.numStates ∧
      g.protagonist_vertex.count false = a.numStates * 2 ^ k ∧
      g.protagonist_vertex.length = a.numStates * (1 + 2 ^ k) ∧
      g.successors.length = a.numStates * (1 + 2 ^ k) ∧
      g.priorities.length = a.numStates * (1 + 2 ^ k) := by
  have hsome : (build a vals).isSome = true := (build_isSome_iff a vals).2 hcomp
  obtain ⟨st, hb⟩ := Option.isSome_iff_exists.1 hsome
  have hB := build_built htgt hb
  have hA := hB.count_classA
  have hN := build_natureCount hb
  rw [hlen] at hN
  have hlenP : st.game.protagonist_vertex.length = a.numStates * (1 + 2 ^ k) := by
    rw [← List.count_true_add_count_false, hA, hN, Nat.mul_add, Nat.mul_one]
  obtain ⟨h1, h2, h3⟩ := hB.lengths
  refine ⟨st.game, by simp [gameBuilder, hb], hA, hN, hlenP, ?_, ?_⟩
  · rw [h2, ← h1, hlenP]
  · rw [h3, ← h1, hlenP]

/-- C4 on the worked example (3 states, one uncontrollable input): 3 class-A vertices,
6 class-B vertices, 9 vertices. -/
theorem gameBuilder_vertex_count_witness :
    (∀ s < exampleAutomaton.numStates, ∀ tr ∈ exampleAutomaton.successors s,
      tr.2 < exampleAutomaton.numStates) ∧
    exampleVals.length = 2 ^ 1 ∧
    (∀ s < exampleAutomaton.numStates, ∀ v ∈ exampleVals,
      ∃ tr ∈ exampleAutomaton.successors s, compatible tr.1 v = true) ∧
    ∃ g, gameBuilder exampleAutomaton exampleVals = some g ∧
      g.protagonist_vertex.count true = exampleAutomaton.numStates ∧
      g.protagonist_vertex.count false = exampleAutomaton.numStates * 2 ^ 1 ∧
      g.protagonist_vertex.length = exampleAutomaton.numStates * (1 + 2 ^ 1) ∧
      g.successors.length = exampleAutomaton.numStates * (1 + 2 ^ 1) ∧
      g.priorities.length = exampleAutomaton.numStates * (1 + 2 ^ 1) :=
  ⟨example_targets, rfl, by decide,
    gameBuilder_vertex_count exampleAutomaton exampleVals 1 example_targets rfl (by decide)⟩

/-- C5: when all transition targets are declared states, the valuation sequence has length
`2^k` and the construction succeeds, every class-A vertex of the arena has out-degree
exactly `2^k`, every class-B vertex has out-degree at least 1, and so no vertex is a dead
end. -/
theorem gameBuilder_out_degree (a : SimpleAutomaton) (vals : List BDD) (k : Nat)
    (g : SimpleArena)
    (htgt : ∀ s < a.numStates, ∀ tr ∈ a.successors s, tr.2 < a.numStates)
    (hlen : vals.length = 2 ^ k) (hg : gameBuilder a vals = some g) :
    ∀ x < g.protagonist_vertex.length,
      (g.protagonist_vertex[x]? = some true → (g.succ x).length = 2 ^ k) ∧
      (g.protagonist_vertex[x]? = some false → 1 ≤ (g.succ x).length) ∧
      g.succ x ≠ [] := by
  obtain ⟨st, hb, rfl⟩ := build_of_gameBuilder hg
  have hB := build_built htgt hb
  intro x hx
  have hdeg := hB.out_degree hb x
  refine ⟨fun h => by rw [hdeg.1 h, hlen], hdeg.2, ?_⟩
  intro hnil
  rcases vertex_class st.game hx with h | h
  · have := hdeg.1 h
    rw [hnil, hlen] at this
    have hpos : 0 < 2 ^ k := Nat.two_pow_pos k
    simp at this
    omega
  · have := hdeg.2 h
    rw [hnil] at this
    simp at this

/-- C5 on the worked example: vertex 2 (class A) has two successors. -/
theorem gameBuilder_out_degree_witness :
    (∀ s < exampleAutomaton.numStates, ∀ tr ∈ exampleAutomaton.successors s,
      tr.2 < exampleAutomaton.numStates) ∧
    exampleVals.length = 2 ^ 1 ∧
    gameBuilder exampleAutomaton exampleVals = some exampleState.game ∧
    (exampleState.game.succ 2).length = 2 ^ 1 :=
  ⟨example_targets, rfl, by decide,
    (gameBuilder_out_degree exampleAutomaton exampleVals 1 exampleState.game example_targets
      rfl (by decide) 2 (by decide)).1 rfl⟩

/-- C6: when all transition targets are declared states and the construction succeeds with
final state `st`, the class-A vertex of every declared state `s` has the priority of `s`,
and every class-B vertex created while expanding `s` (the successors of that class-A
vertex) has the priority of `s` as well; every class-B vertex is created in this way. -/
theorem gameBuilder_priorities (a : SimpleAutomaton) (vals : List BDD) (st : BuildState)
    (htgt : ∀ s < a.numStates, ∀ tr ∈ a.successors s, tr.2 < a.numStates)
    (hb : build a vals = some st) :
    gameBuilder a vals = some st.game ∧
    (∀ s < a.numStates,
      st.game.protagonist_vertex[st.vertexOf s]? = some true ∧
      st.game.priorities[st.vertexOf s]? = some (a.priorities s) ∧
      ∀ b ∈ st.game.succ (st.vertexOf s),
        st.game.protagonist_vertex[b]? = some false ∧
        st.game.priorities[b]? = some (a.priorities s)) ∧
    (∀ x, st.game.protagonist_vertex[x]? = some false →
      ∃ s < a.numStates, x ∈ st.game.succ (st.vertexOf s)) := by
  have hB := build_built htgt hb
  refine ⟨by simp [gameBuilder, hb], ?_, ?_⟩
  · intro s hs
    obtain ⟨_, hA, hQ, hshape⟩ := hB.expanded hs
    refine ⟨hA, hQ, fun b hmem => ?_⟩
    obtain ⟨v, _, hnat⟩ := forall₂_mem_right hshape hmem
    exact ⟨hnat.1, hnat.2.1⟩
  · intro x hx
    obtain ⟨s, hs, v, _, hmem, _, _⟩ := hB.classB hx
    exact ⟨s, hs, hmem⟩

/-- C6 on the worked example: vertex 3, created while expanding state 0, has the priority
of state 0 although both its successors are the vertex of state 2 (priority 2). -/
theorem gameBuilder_priorities_witness :
    (∀ s < exampleAutomaton.numStates, ∀ tr ∈ exampleAutomaton.successors s,
      tr.2 < exampleAutomaton.numStates) ∧
    build exampleAutomaton exampleVals = some exampleState ∧
    exampleState.game.priorities[3]? = some (exampleAutomaton.priorities 0) :=
  ⟨example_targets, example_build,
    (((gameBuilder_priorities exampleAutomaton exampleVals exampleState example_targets
      example_build).2.1 0 (by decide)).2.2 3 (by decide)).2⟩

/-- C9: when all transition targets are declared states and the construction succeeds with
final state `st`, every class-B vertex occurs exactly once in the successor lists of the
whole arena: it occurs once in the successor list of the class-A vertex of one declared
state, at one position, and in the list of no other state.  Distinct declared states have
distinct class-A vertices. -/
theorem nature_vertex_not_shared (a : SimpleAutomaton) (vals : List BDD) (st : BuildState)
    (htgt : ∀ s < a.numStates, ∀ tr ∈ a.successors s, tr.2 < a.numStates)
    (hb : build a vals = some st) :
    gameBuilder a vals = some st.game ∧
    (∀ x, st.game.protagonist_vertex[x]? = some false →
      st.game.occurrences x = 1 ∧
      ∃ s < a.numStates, ∃ j < vals.length,
        (st.game.succ (st.vertexOf s))[j]? = some x ∧
        (st.game.succ (st.vertexOf s)).count x = 1 ∧
        ∀ s' < a.numStates, ∀ j', (st.game.succ (st.vertexOf s'))[j']? = some x →
          s' = s ∧ j' = j) ∧
    (∀ s < a.numStates, ∀ s' < a.numStates, st.vertexOf s = st.vertexOf s' → s = s') := by
  have hB := build_built htgt hb
  refine ⟨by simp [gameBuilder, hb], ?_, fun s hs s' hs' h => hB.inj hs hs' h⟩
  intro x hx
  obtain ⟨s, hs, v, _, hmem, _, hocc⟩ := hB.classB hx
  obtain ⟨j, hj, hjx⟩ := mem_iff_getElem?_lt hmem
  have hlen := (hB.expanded hs).2.2.2.length_eq
  have hpos : 0 < (st.game.succ (st.vertexOf s)).count x := List.count_pos_iff.2 hmem
  have hle := count_le_occurrences st.game (st.vertexOf s) x
  have hone : (st.game.succ (st.vertexOf s)).count x = 1 := by omega
  refine ⟨hocc, s, hs, j, by omega, hjx, hone, ?_⟩
  intro s' hs' j' hj'
  have hmem' : x ∈ st.game.succ (st.vertexOf s') := List.getElem?_mem hj'
  have hss : s' = s := by
    by_contra hne
    have hvne : st.vertexOf s ≠ st.vertexOf s' := fun h => hne (hB.inj hs hs' h).symm
    have h2 := two_counts_le_sum x st.game.successors _ _ hvne
    have hpos' : 0 < (st.game.succ (st.vertexOf s')).count x := List.count_pos_iff.2 hmem'
    unfold SimpleArena.occurrences at hocc
    unfold SimpleArena.succ at hpos hpos'
    omega
  subst hss
  exact ⟨rfl, count_eq_one_index_unique hone hj' hjx⟩

/-- C9 on the worked example: vertex 6, a class-B vertex of state 1, occurs once. -/
theorem nature_vertex_not_shared_witness :
    (∀ s < exampleAutomaton.numStates, ∀ tr ∈ exampleAutomaton.successors s,
      tr.2 < exampleAutomaton.numStates) ∧
    build exampleAutomaton exampleVals = some exampleState ∧
    exampleState.game.occurrences 6 = 1 :=
  ⟨example_targets, example_build,
    ((nature_vertex_not_shared exampleAutomaton exampleVals exampleState example_targets
      example_build).2.1 6 rfl).1⟩

/-! ## The post-condition checks -/

theorem visitStep_sound (g : SimpleArena) (vis : List Nat) (h : ∀ x ∈ vis, g.Reach 0 x) :
    ∀ x ∈ g.visitStep vis, g.Reach 0 x := by
  intro x hx
  unfold SimpleArena.visitStep at hx
  rw [List.mem_dedup, List.mem_append, List.mem_flatMap] at hx
  rcases hx with hx | ⟨y, hy, hxy⟩
  · exact h x hx
  · exact Relation.ReflTransGen.tail (h y hy) hxy

theorem visited_sound (g : SimpleArena) : ∀ x ∈ g.visited, g.Reach 0 x := by
  unfold SimpleArena.visited
  generalize g.protagonist_vertex.length = n
  induction n with
  | zero =>
    intro x hx
    simp only [Function.iterate_zero, id_eq, List.mem_singleton] at hx
    rw [hx]
    exact Relation.ReflTransGen.refl
  | succ n ih =>
    rw [Function.iterate_succ_apply']
    exact visitStep_sound g _ ih

/-- A passed reachability check means that every vertex is reachable from vertex 0. -/
theorem isReachable_sound (g : SimpleArena) (h : g.isReachable = true) :
    ∀ x < g.protagonist_vertex.length, g.Reach 0 x := by
  intro x hx
  unfold SimpleArena.isReachable at h
  have := (List.all_eq_true.1 h) x (List.mem_range.2 hx)
  exact visited_sound g x (by simpa using this)

/-- The first state expanded is state 0, and its class-A vertex is vertex 0. -/
theorem build_vertexOf_zero {a : SimpleAutomaton} {vs : List BDD} {st : BuildState}
    (hS : 1 ≤ a.numStates) (hb : build a vs = some st) : st.find 0 = some 0 := by
  unfold build at hb
  obtain ⟨n, hn⟩ : ∃ n, a.numStates = n + 1 := ⟨a.numStates - 1, by omega⟩
  rw [hn, List.range_succ_eq_map] at hb
  unfold stateLoop at hb
  cases hstep : stateStep a vs BuildState.init 0 with
  | none => rw [hstep] at hb; simp at hb
  | some st₁ =>
    rw [hstep] at hb
    have h0 : (ensureState a BuildState.init 0).find 0 = some 0 := rfl
    exact (extends_stateLoop _ hb).1 _ _ ((extends_valLoop vs hstep).1 _ _ h0)

/-- Every vertex reachable from vertex 0 is the class-A vertex of a state reachable from
state 0, or a successor of such a vertex. -/
theorem Built.reach_sound {a : SimpleAutomaton} {vs : List BDD} {st : BuildState}
    (hB : Built a vs st) (hS : 1 ≤ a.numStates)
    (htgt : ∀ s < a.numStates, ∀ tr ∈ a.successors s, tr.2 < a.numStates)
    (h0 : st.find 0 = some 0) {x : Nat} (hx : st.game.Reach 0 x) :
    ∃ s < a.numStates, a.Reach vs 0 s ∧
      (x = st.vertexOf s ∨ x ∈ st.game.succ (st.vertexOf s)) := by
  induction hx with
  | refl =>
    exact ⟨0, by omega, Relation.ReflTransGen.refl,
      Or.inl (by simp [BuildState.vertexOf, h0])⟩
  | tail _ hyz ih =>
    obtain ⟨s, hs, hreach, hy | hy⟩ := ih
    · rw [hy] at hyz
      exact ⟨s, hs, hreach, Or.inr hyz⟩
    · obtain ⟨v, hv, hnat⟩ := forall₂_mem_right (hB.expanded hs).2.2.2 hy
      rw [hnat.2.2, List.mem_map] at hyz
      obtain ⟨tr, htr, hz⟩ := hyz
      rw [List.mem_filter] at htr
      refine ⟨tr.2, htgt s hs tr htr.1, ?_, Or.inl hz.symm⟩
      exact Relation.ReflTransGen.tail hreach ⟨tr, htr.1, rfl, v, hv, htr.2⟩

/-- C7: for an automaton with at least one state whose transition targets are all declared
states, and a non-empty valuation sequence on which the construction succeeds: if some
declared state `u` is not reachable from state 0 along transitions compatible with a
valuation, then the reachability check fails on the arena (the class-A vertex of `u` is
not reachable from vertex 0) while the completeness check passes (no vertex is a dead
end). -/
theorem unreachable_state_fails_reachability (a : SimpleAutomaton) (vals : List BDD)
    (g : SimpleArena) (hS : 1 ≤ a.numStates)
    (htgt : ∀ s < a.numStates, ∀ tr ∈ a.successors s, tr.2 < a.numStates)
    (hvals : vals ≠ []) (hg : gameBuilder a vals = some g)
    (u : Nat) (hu : u < a.numStates) (hun : ¬ a.Reach vals 0 u) :
    g.isReachable = false ∧
    (∃ x < g.protagonist_vertex.length, ¬ g.Reach 0 x) ∧
    g.isComplete = true ∧
    (∀ x < g.protagonist_vertex.length, g.succ x ≠ []) := by
  obtain ⟨st, hb, rfl⟩ := build_of_gameBuilder hg
  have hB := build_built htgt hb
  have h0 := build_vertexOf_zero hS hb
  obtain ⟨_, hA, _, _⟩ := hB.expanded hu
  have hlt : st.vertexOf u < st.game.protagonist_vertex.length :=
    (List.getElem?_eq_some.1 hA).1
  have hnot : ¬ st.game.Reach 0 (st.vertexOf u) := by
    intro hreach
    obtain ⟨s, hs, hsr, hv | hv⟩ := hB.reach_sound hS htgt h0 hreach
    · rw [hB.inj hu hs hv] at hun
      exact hun hsr
    · obtain ⟨v, _, hnat⟩ := forall₂_mem_right (hB.expanded hs).2.2.2 hv
      rw [hnat.1] at hA
      exact absurd hA (by simp)
  have hdead : ∀ x < st.game.protagonist_vertex.length, st.game.succ x ≠ [] := by
    intro x hx hnil
    have hdeg := hB.out_degree hb x
    have hpos : 0 < vals.length := List.length_pos.2 hvals
    rcases vertex_class st.game hx with h | h
    · have := hdeg.1 h
      rw [hnil] at this
      simp at this
      omega
    · have := hdeg.2 h
      rw [hnil] at this
      simp at this
  refine ⟨?_, ⟨st.vertexOf u, hlt, hnot⟩, ?_, hdead⟩
  · cases hr : st.game.isReachable with
    | false => rfl
    | true => exact absurd (isReachable_sound st.game hr _ hlt) hnot
  · unfold SimpleArena.isComplete
    rw [List.all_eq_true]
    intro x hx
    have hx' := List.mem_range.1 hx
    obtain ⟨h1, _, h3⟩ := hB.lengths
    have hne := hdead x hx'
    have hq : x < st.game.priorities.length := by rw [h3, ← h1]; exact hx'
    cases hl : st.game.succ x with
    | nil => exact absurd hl hne
    | cons y l => simp [hq]

theorem example_reach (t : Nat) (h : exampleAutomaton.Reach exampleVals 0 t) :
    t = 0 ∨ t = 2 := by
  induction h with
  | refl => exact Or.inl rfl
  | tail _ hstep ih =>
    obtain ⟨tr, htr, rfl, _⟩ := hstep
    rcases ih with rfl | rfl
    · simp only [exampleAutomaton, if_true, List.mem_cons, List.mem_singleton] at htr
      rcases htr with rfl | rfl | rfl | h
      · exact Or.inr rfl
      · exact Or.inl rfl
      · exact Or.inr rfl
      · simp at h
    · simp [exampleAutomaton] at htr
      rw [htr]
      exact Or.inr rfl

/-- C7 on the worked example: state 1 is not reachable from state 0, the arena fails the
reachability check and passes the completeness check. -/
theorem unreachable_state_fails_reachability_witness :
    1 ≤ exampleAutomaton.numStates ∧
    (∀ s < exampleAutomaton.numStates, ∀ tr ∈ exampleAutomaton.successors s,
      tr.2 < exampleAutomaton.numStates) ∧
    exampleVals ≠ [] ∧
    gameBuilder exampleAutomaton exampleVals = some exampleState.game ∧
    1 < exampleAutomaton.numStates ∧
    ¬ exampleAutomaton.Reach exampleVals 0 1 ∧
    exampleState.game.isReachable = false ∧
    exampleState.game.isComplete = true :=
  have hun : ¬ exampleAutomaton.Reach exampleVals 0 1 := fun h => by
    rcases example_reach 1 h with h | h <;> simp at h
  have hg : gameBuilder exampleAutomaton exampleVals = some exampleState.game := by decide
  have key := unreachable_state_fails_reachability exampleAutomaton exampleVals
    exampleState.game (by decide) example_targets (by decide) hg 1 (by decide) hun
  ⟨by decide, example_targets, by decide, hg, by decide, hun, key.1, key.2.2.1⟩

/-! ## The command line -/

theorem append_ne_empty (s t : String) (hs : s ≠ "") : s ++ t ≠ "" := by
  intro h
  have hlen := congrArg String.length h
  rw [String.length_append] at hlen
  have h0 : s.length = 0 := by
    have : ("" : String).length = 0 := rfl
    omega
  apply hs
  apply String.ext
  have : s.data.length = 0 := h0
  rw [List.length_eq_zero.1 this]

theorem usage_error {error : String} (h : error ≠ "") : usage error = usageError error := by
  simp [usage, usageError, h]

theorem argLoop_usage_error (arguments : List String) :
    ∀ (ehoafile_set : Bool) (ehoafile : String),
      "--help" ∉ arguments → "--version" ∉ arguments →
      ((∃ arg ∈ arguments, isOption arg = true) ∨
        (positional arguments).length + (if ehoafile_set then 1 else 0) ≠ 1) →
      ∃ error, error ≠ "" ∧ argLoop arguments ehoafile_set ehoafile = usageError error := by
  induction arguments with
  | nil =>
    intro ehoafile_set ehoafile _ _ hbad
    rcases hbad with ⟨arg, harg, _⟩ | hbad
    · simp at harg
    · cases ehoafile_set with
      | true => simp [positional] at hbad
      | false =>
        exact ⟨"Expected a file path with an eHOA file!", by decide,
          by simp only [argLoop, Bool.not_false, if_true]; exact usage_error (by decide)⟩
  | cons arg arguments ih =>
    intro ehoafile_set ehoafile hhelp hver hbad
    have hhelp' : arg ≠ "--help" := fun h => hhelp (by simp [h])
    have hver' : arg ≠ "--version" := fun h => hver (by simp [h])
    unfold argLoop
    by_cases hopt : isOption arg = true
    · simp only [hopt, if_true, hhelp', hver', if_false]
      exact ⟨"Unexpected option " ++ arg, append_ne_empty _ _ (by decide),
        usage_error (append_ne_empty _ _ (by decide))⟩
    · simp only [hopt, Bool.false_eq_true, if_false]
      cases ehoafile_set with
      | true =>
        simp only [Bool.not_true, Bool.false_eq_true, if_false]
        exact ⟨"Unexpected argument " ++ arg, append_ne_empty _ _ (by decide),
          usage_error (append_ne_empty _ _ (by decide))⟩
      | false =>
        simp only [Bool.not_false, if_true]
        apply ih true arg (fun h => hhelp (List.mem_cons_of_mem _ h))
          (fun h => hver (List.mem_cons_of_mem _ h))
        rcases hbad with ⟨arg', harg', hopt'⟩ | hbad
        · rcases List.mem_cons.1 harg' with rfl | hmem
          · exact absurd hopt' hopt
          · exact Or.inl ⟨arg', hmem, hopt'⟩
        · right
          have hpos : positional (arg :: arguments) = arg :: positional arguments := by
            simp [positional, List.filter_cons, hopt]
          rw [hpos] at hbad
          simpa using hbad

/-- C10, as amended: for every non-empty argument list that contains neither `--help` nor
`--version`, if some argument starts with `--` or the number of positional arguments is
not exactly one, `main` returns status 2 before any file is opened, with nothing on
standard output and the version text and the error message on standard error. -/
theorem main_usage_error (arguments : List String) (hne : arguments ≠ [])
    (hhelp : "--help" ∉ arguments) (hver : "--version" ∉ arguments)
    (hbad : (∃ arg ∈ arguments, isOption arg = true) ∨ (positional arguments).length ≠ 1) :
    ∃ error, error ≠ "" ∧
      mainArgs arguments = ArgOutcome.returned 2 []
        (printVersion ++ ["ERROR: Command-line arguments error: " ++ error,
          "Use argument \x27--help\x27 to get usage information."]) := by
  have hlen : ¬ arguments.length = 0 := fun h => hne (List.length_eq_zero.1 h)
  unfold mainArgs
  simp only [hlen, if_false]
  exact argLoop_usage_error arguments false "" hhelp hver (by simpa using hbad)

/-- C10 on two inputs: an unknown option, and two file names. -/
theorem main_usage_error_witness :
    (["--verbose"] ≠ [] ∧ "--help" ∉ ["--verbose"] ∧ "--version" ∉ ["--verbose"] ∧
      ((∃ arg ∈ ["--verbose"], isOption arg = true) ∨ (positional ["--verbose"]).length ≠ 1)) ∧
    ∃ error, error ≠ "" ∧
      mainArgs ["--verbose"] = ArgOutcome.returned 2 []
        (printVersion ++ ["ERROR: Command-line arguments error: " ++ error,
          "Use argument \x27--help\x27 to get usage information."]) :=
  ⟨⟨by decide, by decide, by decide, Or.inl ⟨"--verbose", by decide, by decide⟩⟩,
    main_usage_error ["--verbose"] (by decide) (by decide) (by decide)
      (Or.inl ⟨"--verbose", by decide, by decide⟩)⟩

/-- C10 as stated fails on the empty argument list: it contains neither `--help` nor
`--version` and has no positional argument, yet `main` returns status 0 with the usage
text on standard output and nothing on standard error. -/
theorem main_no_arguments_returns_zero :
    "--help" ∉ ([] : List String) ∧ "--version" ∉ ([] : List String) ∧
    (positional []).length ≠ 1 ∧
    mainArgs [] = ArgOutcome.returned 0
      (printVersion ++ [" A single argument is expected: an extended HOA-format",
        " file with a deterministic parity automaton"]) [] ∧
    ¬ ∃ out err, mainArgs [] = ArgOutcome.returned 2 out err := by
  refine ⟨by decide, by decide, by decide, by decide, ?_⟩
  rintro ⟨out, err, h⟩
  have h0 : mainArgs [] = ArgOutcome.returned 0
      (printVersion ++ [" A single argument is expected: an extended HOA-format",
        " file with a deterministic parity automaton"]) [] := by decide
  rw [h0] at h
  injection h with hstatus
  exact absurd hstatus (by decide)

/-! ## Step 1 with at least one uncontrollable input -/

theorem counterValue_snoc (l : List Bool) (b : Bool) :
    counterValue (l ++ [b]) = 2 * counterValue l + b.toNat := by
  simp [counterValue, List.foldl_append]

theorem counterValue_lt (l : List Bool) : counterValue l < 2 ^ l.length := by
  induction l using List.reverseRecOn with
  | nil => simp [counterValue]
  | append_singleton l b ih =>
    rw [counterValue_snoc, List.length_append, List.length_singleton, Nat.pow_succ]
    cases b <;> simp <;> omega

theorem bits_length (k j : Nat) : (bits k j).length = k := by
  induction k generalizing j with
  | zero => rfl
  | succ k ih => simp [bits, ih]

theorem bits_counterValue (l : List Bool) : bits l.length (counterValue l) = l := by
  induction l using List.reverseRecOn with
  | nil => rfl
  | append_singleton l b ih =>
    rw [counterValue_snoc, List.length_append, List.length_singleton, bits]
    have h1 : (2 * counterValue l + b.toNat) / 2 = counterValue l := by
      cases b <;> first | (simp; done) | (simp; omega)
    have h2 : decide ((2 * counterValue l + b.toNat) % 2 = 1) = b := by
      cases b <;> first | (simp; done) | (simp; omega)
    rw [h1, h2, ih]

theorem counterValue_bits (k j : Nat) (hj : j < 2 ^ k) : counterValue (bits k j) = j := by
  induction k generalizing j with
  | zero => simp at hj; simp [bits, counterValue, hj]
  | succ k ih =>
    rw [bits, counterValue_snoc, ih (j / 2) (by rw [Nat.pow_succ] at hj; omega)]
    by_cases h : j % 2 = 1 <;> simp [h] <;> omega

theorem getD_append_length (hd : List Bool) (b : Bool) (tl : List Bool) (d : Bool) :
    (hd ++ b :: tl).getD hd.length d = b := by
  induction hd with
  | nil => rfl
  | cons x hd ih => simpa using ih

theorem set_append_length (hd : List Bool) (b c : Bool) (tl : List Bool) :
    (hd ++ b :: tl).set hd.length c = hd ++ c :: tl := by
  induction hd with
  | nil => rfl
  | cons x hd ih => simp

/-- The carry loop adds one to the counter, or sets `done` when all digits are true. -/
theorem increase_spec (hd : List Bool) (hne : hd ≠ []) : ∀ tl : List Bool,
    (counterValue hd + 1 < 2 ^ hd.length ∧
      ∃ hd', hd'.length = hd.length ∧ counterValue hd' = counterValue hd + 1 ∧
        increase hd.length (hd ++ tl) = (hd' ++ tl, false)) ∨
    (counterValue hd + 1 = 2 ^ hd.length ∧ (increase hd.length (hd ++ tl)).2 = true) := by
  induction hd using List.reverseRecOn with
  | nil => exact absurd rfl hne
  | append_singleton l b ih =>
    intro tl
    have hlt := counterValue_lt l
    rw [List.length_append, List.length_singleton, counterValue_snoc, Nat.pow_succ,
      List.append_assoc, List.singleton_append]
    unfold increase
    rw [getD_append_length]
    cases b with
    | false =>
      left
      refine ⟨by simp; omega, l ++ [true], by simp, ?_, ?_⟩
      · rw [counterValue_snoc]; simp
      · simp [set_append_length]
    | true =>
      simp only [Bool.not_true, Bool.false_eq_true, if_false, set_append_length]
      by_cases hl : l = []
      · subst hl
        right
        simp [counterValue]
      · have hpos : l.length > 0 := List.length_pos.2 hl
        simp only [hpos, if_true]
        rcases ih hl (false :: tl) with ⟨h1, hd', h2, h3, h4⟩ | ⟨h1, h2⟩
        · left
          refine ⟨by simp; omega, hd' ++ [false], by simp [h2], ?_, ?_⟩
          · rw [counterValue_snoc, h3]; simp; omega
          · rw [h4]; simp
        · right
          exact ⟨by simp; omega, h2⟩

theorem enumLoop_succ (uinputs : List Nat) (fuel : Nat) (s : EnumState) :
    enumLoop uinputs (fuel + 1) s =
      if s.done then some s.input_vals else enumLoop uinputs fuel (enumBody uinputs s) :=
  rfl

/-- With at least one uncontrollable input, the `while` loop entered with the counter at
`j` and `m` values left pushes the valuations of `j, ..., j + m - 1` and ends. -/
theorem enumLoop_spec (uinputs : List Nat) (hk : 0 < uinputs.length) (m : Nat) :
    ∀ (j : Nat) (acc : List BDD) (extra : Nat), j + (m + 1) = 2 ^ uinputs.length →
      enumLoop uinputs (extra + (m + 2)) ⟨bits uinputs.length j, false, acc⟩ =
        some (acc ++ (List.range' j (m + 1)).map fun i =>
          valBDD uinputs (bits uinputs.length i)) := by
  induction m with
  | zero =>
    intro j acc extra hj
    have hne : bits uinputs.length j ≠ [] := by
      intro h
      have := bits_length uinputs.length j
      rw [h] at this
      simp at this
      omega
    have hcv : counterValue (bits uinputs.length j) = j := counterValue_bits _ _ (by omega)
    have hspec := increase_spec _ hne []
    rw [bits_length, hcv, List.append_nil] at hspec
    rcases hspec with ⟨h1, _⟩ | ⟨_, h2⟩
    · omega
    · show enumLoop uinputs ((extra + 1) + 1) _ = _
      rw [enumLoop_succ, enumLoop_succ]
      simp only [Bool.false_eq_true, if_false, enumBody, h2, if_true]
      simp [List.range']
  | succ m ih =>
    intro j acc extra hj
    have hne : bits uinputs.length j ≠ [] := by
      intro h
      have := bits_length uinputs.length j
      rw [h] at this
      simp at this
      omega
    have hcv : counterValue (bits uinputs.length j) = j := counterValue_bits _ _ (by omega)
    have hspec := increase_spec _ hne []
    rw [bits_length, hcv, List.append_nil] at hspec
    rcases hspec with ⟨_, hd', h2, h3, h4⟩ | ⟨h1, _⟩
    · have hhd : hd' = bits uinputs.length (j + 1) := by
        rw [← bits_counterValue hd', h2, h3]
      rw [List.append_nil, hhd] at h4
      show enumLoop uinputs ((extra + (m + 2)) + 1) _ = _
      rw [enumLoop_succ]
      simp only [Bool.false_eq_true, if_false, enumBody, h4]
      rw [ih (j + 1) _ extra (by omega), List.range'_succ j (m + 1)]
      simp
    · omega

/-- Step 1 with at least one uncontrollable input: the loop ends, and `input_vals` holds
the valuations of the counter values `0, ..., 2^k - 1` in this order. -/
theorem enumerate_eq (uinputs : List Nat) (hk : 0 < uinputs.length) (fuel : Nat)
    (hfuel : 2 ^ uinputs.length + 1 ≤ fuel) :
    enumerate fuel uinputs =
      some ((List.range (2 ^ uinputs.length)).map fun j =>
        valBDD uinputs (bits uinputs.length j)) := by
  have hpos : 0 < 2 ^ uinputs.length := Nat.two_pow_pos _
  obtain ⟨m, hm⟩ : ∃ m, 2 ^ uinputs.length = m + 1 := ⟨2 ^ uinputs.length - 1, by omega⟩
  obtain ⟨extra, he⟩ : ∃ extra, fuel = extra + (m + 2) := ⟨fuel - (m + 2), by omega⟩
  have hinit : enumInit uinputs = ⟨bits uinputs.length 0, false, []⟩ := by
    unfold enumInit
    congr
    rw [← bits_counterValue (List.replicate uinputs.length false)]
    congr 1
    · simp
    · clear hk hfuel hpos hm he
      induction uinputs.length with
      | zero => rfl
      | succ n ih => rw [List.replicate_succ', counterValue_snoc, ih]; rfl
  unfold enumerate
  rw [hinit, he, enumLoop_spec uinputs hk m 0 [] extra (by omega), hm, List.range_eq_range']
  simp

theorem eval_foldl_and (σ : Nat → Bool) (lit : Nat → BDD) (l : List Nat) (acc : BDD) :
    (l.foldl (fun acc i => BDD.and acc (lit i)) acc).eval σ =
      (acc.eval σ && l.all fun i => (lit i).eval σ) := by
  induction l generalizing acc with
  | nil => simp
  | cons i l ih => rw [List.foldl_cons, ih]; simp [BDD.eval, Bool.and_assoc]

/-- A valuation holds under an assignment exactly when the assignment gives every
uncontrollable input the value of its counter digit. -/
theorem eval_valBDD (σ : Nat → Bool) (uinputs : List Nat) (val : List Bool) :
    (valBDD uinputs val).eval σ =
      (List.range uinputs.length).all fun i => σ (uinputs.getD i 0) == val.getD i false := by
  unfold valBDD
  rw [eval_foldl_and σ (fun i => if !(val.getD i false) then
    BDD.neg (BDD.bddVar (uinputs.getD i 0)) else BDD.bddVar (uinputs.getD i 0))]
  simp only [BDD.eval, Bool.true_and]
  congr 1
  funext i
  cases val.getD i false <;> simp [BDD.eval]

theorem eval_valBDD_iff (σ : Nat → Bool) (uinputs : List Nat) (val : List Bool) :
    (valBDD uinputs val).eval σ = true ↔
      ∀ i < uinputs.length, σ (uinputs.getD i 0) = val.getD i false := by
  rw [eval_valBDD, List.all_eq_true]
  simp [List.mem_range]

theorem eq_of_getD_eq {l₁ l₂ : List Bool} (hlen : l₁.length = l₂.length)
    (h : ∀ i < l₁.length, l₁.getD i false = l₂.getD i false) : l₁ = l₂ := by
  apply List.ext_getElem hlen
  intro i h₁ h₂
  have := h i h₁
  rwa [List.getD_eq_getElem _ _ h₁, List.getD_eq_getElem _ _ h₂] at this

/-- The digit of a counter value, as a bit of the number it stands for. -/
theorem bits_getD (k j i : Nat) (hi : i < k) :
    (bits k j).getD i false = j.testBit (k - 1 - i) := by
  induction k generalizing j with
  | zero => omega
  | succ k ih =>
    rw [bits]
    by_cases hik : i < k
    · rw [List.getD_append _ _ _ _ (by rw [bits_length]; exact hik), ih (j / 2) hik,
        ← Nat.testBit_succ]
      congr 1
      omega
    · have hik' : i = k := by omega
      subst hik'
      have := getD_append_length (bits i (j / 2)) (decide (j % 2 = 1)) [] false
      rw [bits_length] at this
      rw [this]
      simp

/-- Step 1 with `k >= 1` distinct uncontrollable inputs: the loop ends and yields `2^k`
valuations that are pairwise mutually exclusive, pairwise distinct as boolean functions
and jointly exhaustive. -/
theorem enumerate_partition (uinputs : List Nat) (hk : 0 < uinputs.length)
    (hnd : uinputs.Nodup) (fuel : Nat) (hfuel : 2 ^ uinputs.length + 1 ≤ fuel) :
    ∃ vs, enumerate fuel uinputs = some vs ∧ vs.length = 2 ^ uinputs.length ∧
      (∀ (i j : Nat) (vi vj : BDD), vs[i]? = some vi → vs[j]? = some vj → i ≠ j →
        (∀ σ, ¬ (vi.eval σ = true ∧ vj.eval σ = true)) ∧
        ∃ σ, vi.eval σ = true ∧ vj.eval σ = false) ∧
      (∀ σ, ∃ v ∈ vs, v.eval σ = true) := by
  refine ⟨_, enumerate_eq uinputs hk fuel hfuel, by simp, ?_, ?_⟩
  · intro i j vi vj hi hj hij
    have hget : ∀ (n : Nat) (v : BDD),
        ((List.range (2 ^ uinputs.length)).map fun j =>
          valBDD uinputs (bits uinputs.length j))[n]? = some v →
        n < 2 ^ uinputs.length ∧ v = valBDD uinputs (bits uinputs.length n) := by
      intro n v hn
      rw [List.getElem?_map] at hn
      by_cases hlt : n < 2 ^ uinputs.length
      · rw [List.getElem?_range hlt] at hn
        simp only [Option.map_some', Option.some.injEq] at hn
        exact ⟨hlt, hn.symm⟩
      · rw [List.getElem?_eq_none (by simpa using hlt)] at hn
        simp at hn
    obtain ⟨hilt, rfl⟩ := hget i vi hi
    obtain ⟨hjlt, rfl⟩ := hget j vj hj
    have hexcl : ∀ σ, ¬ ((valBDD uinputs (bits uinputs.length i)).eval σ = true ∧
        (valBDD uinputs (bits uinputs.length j)).eval σ = true) := by
      rintro σ ⟨h1, h2⟩
      rw [eval_valBDD_iff] at h1 h2
      have hbits : bits uinputs.length i = bits uinputs.length j := by
        apply eq_of_getD_eq (by simp [bits_length])
        intro t ht
        rw [bits_length] at ht
        rw [← h1 t ht, ← h2 t ht]
      apply hij
      rw [← counterValue_bits _ i hilt, ← counterValue_bits _ j hjlt, hbits]
    refine ⟨hexcl, ?_⟩
    let σ : Nat → Bool := fun x => (bits uinputs.length i).getD (uinputs.indexOf x) false
    have hσ : (valBDD uinputs (bits uinputs.length i)).eval σ = true := by
      rw [eval_valBDD_iff]
      intro t ht
      show (bits uinputs.length i).getD (uinputs.indexOf (uinputs.getD t 0)) false = _
      rw [List.getD_eq_getElem _ _ ht, List.indexOf_getElem hnd t ht]
    refine ⟨σ, hσ, ?_⟩
    cases h : (valBDD uinputs (bits uinputs.length j)).eval σ with
    | false => rfl
    | true => exact absurd ⟨hσ, h⟩ (hexcl σ)
  · intro σ
    have hlen : (uinputs.map σ).length = uinputs.length := by simp
    have hlt := counterValue_lt (uinputs.map σ)
    rw [hlen] at hlt
    refine ⟨valBDD uinputs (bits uinputs.length (counterValue (uinputs.map σ))),
      List.mem_map.2 ⟨_, List.mem_range.2 hlt, rfl⟩, ?_⟩
    rw [eval_valBDD_iff]
    intro t ht
    have := bits_counterValue (uinputs.map σ)
    rw [hlen] at this
    rw [this, List.getD_eq_getElem _ _ ht, List.getD_eq_getElem _ _ (by rw [hlen]; exact ht)]
    simp

/-- With distinct uncontrollable inputs every valuation is satisfiable. -/
theorem valBDD_satisfiable (uinputs : List Nat) (hnd : uinputs.Nodup) (val : List Bool) :
    ∃ σ, (valBDD uinputs val).eval σ = true := by
  refine ⟨fun x => val.getD (uinputs.indexOf x) false, ?_⟩
  rw [eval_valBDD_iff]
  intro t ht
  show val.getD (uinputs.indexOf (uinputs.getD t 0)) false = _
  rw [List.getD_eq_getElem _ _ ht, List.indexOf_getElem hnd t ht]

theorem modify_append_length {α : Type} (f : α → α) (l : List α) (x : α) :
    (l ++ [x]).modify f l.length = l ++ [f x] := by
  induction l with
  | nil => rfl
  | cons y l ih => simp [List.modify_succ_cons, ih]

theorem valStep_selfLoop (k p m : Nat) (v : BDD) (hv : compatible BDD.bddOne v = true) :
    valStep (selfLoopAutomaton k p) 0 (selfLoopState p m) v = some (selfLoopState p (m + 1)) := by
  have hmod := modify_append_length (fun l => l ++ [0]) (List.replicate m [0]) []
  rw [List.length_replicate] at hmod
  simp only [valStep, selfLoopAutomaton, List.foldl_cons, List.foldl_nil, succStep, hv,
    Bool.not_true, Bool.false_eq_true, if_false, if_true]
  simp only [ensureState, openNature, selfLoopState, BuildState.find, BuildState.vertexOf,
    SimpleArena.addVertex, SimpleArena.addEdge, List.lookup]
  simp only [beq_self_eq_true, Option.isNone_some, Bool.false_eq_true, if_false,
    Option.getD_some, List.cons_append, List.modify_zero_cons, List.modify_succ_cons, hmod]
  congr 3
  · rw [List.replicate_succ' m false]
  · congr 1
    · rw [List.range'_concat]; simp [Nat.add_comm]
    · rw [List.replicate_succ' m [0]]; simp
  · rw [List.replicate_succ' (m + 1) p]

theorem valLoop_selfLoop (k p : Nat) (vs : List BDD) :
    ∀ m, (∀ v ∈ vs, compatible BDD.bddOne v = true) →
      valLoop (selfLoopAutomaton k p) 0 vs (selfLoopState p m) =
        some (selfLoopState p (m + vs.length)) := by
  induction vs with
  | nil => intro m _; rfl
  | cons v vs ih =>
    intro m hall
    unfold valLoop
    rw [valStep_selfLoop k p m v (hall v (List.mem_cons_self _ _))]
    simp only
    rw [ih (m + 1) (fun w hw => hall w (List.mem_cons_of_mem _ hw)), List.length_cons]
    congr 2
    omega

/-- Step 2 on the one-state automaton with `n` satisfiable valuations: vertex 0 is the
class-A vertex with successors `1, ..., n`, and each of the vertices `1, ..., n` is a
class-B vertex with the single successor 0; all priorities are `p`. -/
theorem gameBuilder_selfLoop (k p : Nat) (vs : List BDD)
    (hall : ∀ v ∈ vs, compatible BDD.bddOne v = true) :
    gameBuilder (selfLoopAutomaton k p) vs = some (selfLoopState p vs.length).game := by
  have h := valLoop_selfLoop k p vs 0 hall
  rw [Nat.zero_add] at h
  have hb : build (selfLoopAutomaton k p) vs = some (selfLoopState p vs.length) := by
    show stateLoop _ vs [0] BuildState.init = _
    unfold stateLoop stateStep
    have h0 : ensureState (selfLoopAutomaton k p) BuildState.init 0 = selfLoopState p 0 := rfl
    rw [h0, h]
    rfl
  simp [gameBuilder, hb]

/-- Steps 1 and 2 on the one-state automaton with `k >= 1` uncontrollable inputs: the
arena has `1 + 2^k` vertices, vertex 0 of class A with successors `1, ..., 2^k`, the others
of class B with successor 0, all of priority `p`. -/
theorem reduction_selfLoop_of_pos (k p fuel : Nat) (hk : 0 < k) (hfuel : 2 ^ k + 1 ≤ fuel) :
    reduction fuel (selfLoopAutomaton k p) =
      some (some
        { protagonist_vertex := true :: List.replicate (2 ^ k) false
          successors := List.range' 1 (2 ^ k) :: List.replicate (2 ^ k) [0]
          priorities := List.replicate (2 ^ k + 1) p }) := by
  have hlen : (selfLoopAutomaton k p).uinputs.length = k := by simp [selfLoopAutomaton]
  unfold reduction
  rw [enumerate_eq _ (by rw [hlen]; exact hk) fuel (by rw [hlen]; exact hfuel), hlen]
  simp only [Option.map_some']
  rw [gameBuilder_selfLoop]
  · simp [selfLoopState]
  · intro v hv
    obtain ⟨j, _, rfl⟩ := List.mem_map.1 hv
    rw [compatible_iff]
    obtain ⟨σ, hσ⟩ := valBDD_satisfiable (selfLoopAutomaton k p).uinputs
      (List.nodup_range k) (bits k j)
    exact ⟨σ, rfl, hσ⟩

/-! ## The claims about Step 1 -/

theorem enumBody_nil_iterate (n : Nat) :
    (enumBody [])^[n] (enumInit []) = ⟨[], false, List.replicate n BDD.bddOne⟩ := by
  induction n with
  | zero => rfl
  | succ n ih =>
    rw [Function.iterate_succ_apply', ih]
    simp [enumBody, increase, valBDD, List.replicate_succ']

theorem enumLoop_nil_none (fuel : Nat) :
    ∀ vals : List BDD, enumLoop [] fuel ⟨[], false, vals⟩ = none := by
  induction fuel with
  | zero => intro vals; rfl
  | succ fuel ih =>
    intro vals
    simp only [enumLoop, Bool.false_eq_true, if_false]
    exact ih _

theorem enumerate_no_uinputs_aux (fuel : Nat) : enumerate fuel [] = none :=
  enumLoop_nil_none fuel []

/-- C1 at the failing input: without uncontrollable inputs the carry loop never runs, so
after any number of runs of the body of the `while` loop `done` is still false and
`input_vals` holds that many copies of the tautology; the loop does not end within any
bound, and no list of valuations is produced. -/
theorem enumerate_no_uinputs_diverges (n : Nat) :
    ((enumBody [])^[n] (enumInit [])).done = false ∧
    ((enumBody [])^[n] (enumInit [])).input_vals = List.replicate n BDD.bddOne ∧
    enumerate n [] = none := by
  rw [enumBody_nil_iterate]
  exact ⟨rfl, rfl, enumLoop_nil_none n []⟩

/-- C8 at the failing input: on the one-state automaton without uncontrollable inputs (the
scenario of the spec, any priority) Step 1 does not end within any bound, so no arena is
built. -/
theorem reduction_selfLoop_no_uinputs_diverges (fuel p : Nat) :
    reduction fuel (selfLoopAutomaton 0 p) = none := by
  unfold reduction
  have : (selfLoopAutomaton 0 p).uinputs = [] := rfl
  rw [this, (enumerate_no_uinputs_aux fuel)]
  rfl

/-! ## The order of the valuations, and alternation -/

theorem foldl_congr_mem {α β : Type} (f g : β → α → β) (l : List α)
    (h : ∀ acc, ∀ x ∈ l, f acc x = g acc x) (init : β) : l.foldl f init = l.foldl g init := by
  induction l generalizing init with
  | nil => rfl
  | cons x l ih =>
    rw [List.foldl_cons, List.foldl_cons, h init x (List.mem_cons_self _ _)]
    exact ih (fun acc y hy => h acc y (List.mem_cons_of_mem _ hy)) _

/-- The valuation pushed for the counter value of `j` is the conjunction C11 names. -/
theorem valBDD_bits (uinputs : List Nat) (j : Nat) :
    valBDD uinputs (bits uinputs.length j) = countingValuation uinputs j := by
  unfold valBDD countingValuation
  rw [List.foldl_map]
  apply foldl_congr_mem
  intro acc i hi
  rw [bits_getD _ _ _ (List.mem_range.1 hi)]
  cases j.testBit (uinputs.length - 1 - i) <;> simp

theorem enumBody_bits (uinputs : List Nat) (j : Nat) (acc : List BDD)
    (hj : j + 1 < 2 ^ uinputs.length) :
    enumBody uinputs ⟨bits uinputs.length j, false, acc⟩ =
      ⟨bits uinputs.length (j + 1), false, acc ++ [valBDD uinputs (bits uinputs.length j)]⟩ := by
  have hne : bits uinputs.length j ≠ [] := by
    intro h
    have := bits_length uinputs.length j
    rw [h] at this
    have hpos : uinputs.length ≠ 0 := by
      intro h0
      rw [h0] at hj
      simp at hj
    exact hpos this.symm
  have hcv : counterValue (bits uinputs.length j) = j := counterValue_bits _ _ (by omega)
  have hspec := increase_spec _ hne []
  rw [bits_length, hcv, List.append_nil] at hspec
  rcases hspec with ⟨_, hd', h2, h3, h4⟩ | ⟨h1, _⟩
  · have hhd : hd' = bits uinputs.length (j + 1) := by
      rw [← bits_counterValue hd', h2, h3]
    rw [List.append_nil, hhd] at h4
    simp only [enumBody, h4]
  · omega

/-- Before its `2^k`-th round the `while` loop has not ended. -/
theorem enumLoop_short (uinputs : List Nat) (m : Nat) :
    ∀ (j : Nat) (acc : List BDD) (fuel : Nat), j + (m + 1) = 2 ^ uinputs.length →
      fuel ≤ m + 1 → enumLoop uinputs fuel ⟨bits uinputs.length j, false, acc⟩ = none := by
  induction m with
  | zero =>
    intro j acc fuel _ hfuel
    cases fuel with
    | zero => rfl
    | succ f =>
      have : f = 0 := by omega
      subst this
      rfl
  | succ m ih =>
    intro j acc fuel hj hfuel
    cases fuel with
    | zero => rfl
    | succ f =>
      rw [enumLoop_succ]
      simp only [Bool.false_eq_true, if_false]
      rw [enumBody_bits uinputs j acc (by omega)]
      exact ih (j + 1) _ f (by omega) (by omega)

theorem enumerate_short (uinputs : List Nat) (fuel : Nat) (hfuel : fuel ≤ 2 ^ uinputs.length) :
    enumerate fuel uinputs = none := by
  have hpos : 0 < 2 ^ uinputs.length := Nat.two_pow_pos _
  obtain ⟨m, hm⟩ : ∃ m, 2 ^ uinputs.length = m + 1 := ⟨2 ^ uinputs.length - 1, by omega⟩
  have hinit : enumInit uinputs = ⟨bits uinputs.length 0, false, []⟩ := by
    unfold enumInit
    congr
    rw [← bits_counterValue (List.replicate uinputs.length false)]
    congr 1
    · simp
    · clear hfuel hpos hm
      induction uinputs.length with
      | zero => rfl
      | succ n ih => rw [List.replicate_succ', counterValue_snoc, ih]; rfl
  unfold enumerate
  rw [hinit]
  exact enumLoop_short uinputs m 0 [] fuel (by omega) (by omega)

/-- C11: with `k >= 1` uncontrollable inputs `u_0, ..., u_(k-1)` Step 1 produces its `2^k`
valuations in binary-counting order with `u_0` as the most significant bit: the `j`-th
valuation is the conjunction over `i` of `u_i` if bit `k - 1 - i` of `j` is 1 and of
`NOT u_i` otherwise.  The last valuation, that of `2^k - 1`, has all inputs true, and the
loop stops right after it: it is still running after `2^k` tests of its condition and has
ended at the next one. -/
theorem enumerate_binary_order (uinputs : List Nat) (hk : 0 < uinputs.length) (fuel : Nat)
    (hfuel : 2 ^ uinputs.length + 1 ≤ fuel) :
    enumerate fuel uinputs =
      some ((List.range (2 ^ uinputs.length)).map (countingValuation uinputs)) ∧
    (∀ i < uinputs.length, (2 ^ uinputs.length - 1).testBit (uinputs.length - 1 - i) = true) ∧
    (∀ σ, (countingValuation uinputs (2 ^ uinputs.length - 1)).eval σ = true ↔
      ∀ i < uinputs.length, σ (uinputs.getD i 0) = true) ∧
    (∀ fuel' ≤ 2 ^ uinputs.length, enumerate fuel' uinputs = none) := by
  have hbit : ∀ i < uinputs.length,
      (2 ^ uinputs.length - 1).testBit (uinputs.length - 1 - i) = true := by
    intro i hi
    rw [Nat.testBit_two_pow_sub_one]
    simp
    omega
  refine ⟨?_, hbit, ?_, fun fuel' h => enumerate_short uinputs fuel' h⟩
  · rw [enumerate_eq uinputs hk fuel hfuel]
    congr 1
    apply List.map_congr_left
    intro j _
    exact valBDD_bits uinputs j
  · intro σ
    rw [← valBDD_bits, eval_valBDD_iff]
    constructor
    · intro h i hi
      rw [h i hi, bits_getD _ _ _ hi, hbit i hi]
    · intro h i hi
      rw [h i hi, bits_getD _ _ _ hi, hbit i hi]

/-- C11 on the inputs `a = 0`, `b = 1`: the sequence is `NOT a AND NOT b`, `NOT a AND b`,
`a AND NOT b`, `a AND b`. -/
theorem enumerate_binary_order_witness :
    0 < [0, 1].length ∧ 2 ^ [0, 1].length + 1 ≤ 5 ∧
    enumerate 5 [0, 1] = some
      [BDD.and (BDD.and BDD.bddOne (BDD.neg (BDD.bddVar 0))) (BDD.neg (BDD.bddVar 1)),
       BDD.and (BDD.and BDD.bddOne (BDD.neg (BDD.bddVar 0))) (BDD.bddVar 1),
       BDD.and (BDD.and BDD.bddOne (BDD.bddVar 0)) (BDD.neg (BDD.bddVar 1)),
       BDD.and (BDD.and BDD.bddOne (BDD.bddVar 0)) (BDD.bddVar 1)] :=
  ⟨by decide, by decide,
    (enumerate_binary_order [0, 1] (by decide) 5 (by decide)).1.trans (by decide)⟩

/-- C15: when all transition targets are declared states and the construction succeeds,
the arena is strictly alternating: every successor of a class-A vertex is a class-B vertex
and every successor of a class-B vertex is a class-A vertex.  So no edge joins two vertices
of the same class, and no vertex is its own successor. -/
theorem gameBuilder_alternating (a : SimpleAutomaton) (vals : List BDD) (g : SimpleArena)
    (htgt : ∀ s < a.numStates, ∀ tr ∈ a.successors s, tr.2 < a.numStates)
    (hg : gameBuilder a vals = some g) :
    ∀ x y, y ∈ g.succ x →
      ((g.protagonist_vertex[x]? = some true ∧ g.protagonist_vertex[y]? = some false) ∨
        (g.protagonist_vertex[x]? = some false ∧ g.protagonist_vertex[y]? = some true)) ∧
      g.protagonist_vertex[x]? ≠ g.protagonist_vertex[y]? ∧ x ≠ y := by
  obtain ⟨st, hb, rfl⟩ := build_of_gameBuilder hg
  have hB := build_built htgt hb
  have key : ∀ x y, y ∈ st.game.succ x →
      (st.game.protagonist_vertex[x]? = some true ∧
        st.game.protagonist_vertex[y]? = some false) ∨
      (st.game.protagonist_vertex[x]? = some false ∧
        st.game.protagonist_vertex[y]? = some true) := by
    intro x y hy
    have hx : x < st.game.protagonist_vertex.length := by
      rw [hB.lengths.1, ← hB.lengths.2.1]
      exact mem_succ_lt_length _ _ _ hy
    rcases vertex_class st.game hx with hA | hN
    · obtain ⟨s, hs, rfl⟩ := hB.classA hA
      obtain ⟨v, _, hnat⟩ := forall₂_mem_right (hB.expanded hs).2.2.2 hy
      exact Or.inl ⟨hA, hnat.1⟩
    · obtain ⟨s, hs, v, _, _, hnat, _⟩ := hB.classB hN
      rw [hnat.2.2, List.mem_map] at hy
      obtain ⟨tr, htr, rfl⟩ := hy
      exact Or.inr ⟨hN, (hB.expanded (htgt s hs tr (List.mem_filter.1 htr).1)).2.1⟩
  intro x y hy
  refine ⟨key x y hy, ?_, ?_⟩
  · rcases key x y hy with ⟨h1, h2⟩ | ⟨h1, h2⟩ <;> rw [h1, h2] <;> simp
  · rintro rfl
    rcases key x x hy with ⟨h1, h2⟩ | ⟨h1, h2⟩ <;> rw [h1] at h2 <;> simp at h2

/-- C15 on the worked example: vertex 3 (class B) leads to vertex 2 (class A). -/
theorem gameBuilder_alternating_witness :
    (∀ s < exampleAutomaton.numStates, ∀ tr ∈ exampleAutomaton.successors s,
      tr.2 < exampleAutomaton.numStates) ∧
    gameBuilder exampleAutomaton exampleVals = some exampleState.game ∧
    exampleState.game.protagonist_vertex[3]? ≠ exampleState.game.protagonist_vertex[2]? :=
  ⟨example_targets, by decide,
    (gameBuilder_alternating exampleAutomaton exampleVals exampleState.game example_targets
      (by decide) 3 2 (by decide)).2.1⟩

/-! ## Well-formedness during the run -/

theorem mem_of_lookup {s x : Nat} {l : List (Nat × Nat)} (h : List.lookup s l = some x) :
    (s, x) ∈ l := by
  induction l with
  | nil => simp at h
  | cons p l ih =>
    obtain ⟨t, y⟩ := p
    rw [lookup_cons_nat] at h
    by_cases hst : s = t
    · simp only [hst, if_true, Option.some.injEq] at h
      simp [hst, h]
    · simp only [hst, if_false] at h
      exact List.mem_cons_of_mem _ (ih h)

theorem mem_modify {α : Type} (f : α → α) (l : List α) :
    ∀ (n : Nat) (x : α), x ∈ l.modify f n → x ∈ l ∨ ∃ y ∈ l, x = f y := by
  induction l with
  | nil => intro n x hx; simp at hx
  | cons z l ih =>
    intro n x hx
    cases n with
    | zero =>
      rw [List.modify_zero_cons] at hx
      rcases List.mem_cons.1 hx with rfl | hx
      · exact Or.inr ⟨z, List.mem_cons_self _ _, rfl⟩
      · exact Or.inl (List.mem_cons_of_mem _ hx)
    | succ n =>
      rw [List.modify_succ_cons] at hx
      rcases List.mem_cons.1 hx with rfl | hx
      · exact Or.inl (List.mem_cons_self _ _)
      · rcases ih n x hx with h | ⟨y, hy, rfl⟩
        · exact Or.inl (List.mem_cons_of_mem _ h)
        · exact Or.inr ⟨y, List.mem_cons_of_mem _ hy, rfl⟩

theorem WellFormed.atInit : WellFormed BuildState.init where
  len_p := rfl
  len_s := rfl
  len_q := rfl
  cache_lt := fun p hp => by simp [BuildState.init] at hp
  edge_lt := fun l hl => by simp [BuildState.init] at hl

theorem WellFormed.find_lt {st : BuildState} (h : WellFormed st) {s x : Nat}
    (hx : st.find s = some x) : x < st.nindex :=
  h.cache_lt (s, x) (mem_of_lookup hx)

theorem WellFormed.addEdge {st : BuildState} (h : WellFormed st) (u w : Nat)
    (hw : w < st.nindex) :
    WellFormed ⟨st.nindex, st.state2vertex, st.game.addEdge u w⟩ where
  len_p := h.len_p
  len_s := by simp [SimpleArena.addEdge, List.length_modify, h.len_s]
  len_q := h.len_q
  cache_lt := h.cache_lt
  edge_lt := by
    intro l hl x hx
    rcases mem_modify _ _ _ _ hl with hl | ⟨l₀, hl₀, rfl⟩
    · exact h.edge_lt l hl x hx
    · rcases List.mem_append.1 hx with hx | hx
      · exact h.edge_lt l₀ hl₀ x hx
      · rw [List.mem_singleton.1 hx]
        exact hw

theorem WellFormed.addVertex {st : BuildState} (h : WellFormed st) (c : Bool) (q : Nat)
    (cache : List (Nat × Nat)) (hc : ∀ p ∈ cache, p.2 < st.nindex + 1) :
    WellFormed ⟨st.nindex + 1, cache, st.game.addVertex c q⟩ where
  len_p := by simp [SimpleArena.addVertex, h.len_p]
  len_s := by simp [SimpleArena.addVertex, h.len_s]
  len_q := by simp [SimpleArena.addVertex, h.len_q]
  cache_lt := hc
  edge_lt := by
    intro l hl x hx
    simp only [SimpleArena.addVertex, List.mem_append, List.mem_singleton] at hl
    rcases hl with hl | rfl
    · exact Nat.lt_succ_of_lt (h.edge_lt l hl x hx)
    · simp at hx

theorem WellFormed.keptByEnsureState {st : BuildState} (h : WellFormed st)
    (a : SimpleAutomaton) (t : Nat) : WellFormed (ensureState a st t) := by
  cases hfind : st.find t with
  | some x => rw [ensureState_present a hfind]; exact h
  | none =>
    rw [ensureState_absent a hfind]
    apply h.addVertex
    intro p hp
    rcases List.mem_cons.1 hp with rfl | hp
    · exact Nat.lt_succ_self _
    · exact Nat.lt_succ_of_lt (h.cache_lt p hp)

theorem WellFormed.keptByOpenNature {st : BuildState} (h : WellFormed st)
    (a : SimpleAutomaton) (s : Nat) : WellFormed (openNature a s st) :=
  (h.addVertex false (a.priorities s) st.state2vertex
    (fun p hp => Nat.lt_succ_of_lt (h.cache_lt p hp))).addEdge (st.vertexOf s) st.nindex
    (Nat.lt_succ_self _)

theorem WellFormed.keptBySuccStep {acc : BuildState × Bool} (h : WellFormed acc.1)
    (a : SimpleAutomaton) (v : BDD) (b : Nat) (tr : BDD × Nat) :
    WellFormed (succStep a v b acc tr).1 := by
  unfold succStep
  by_cases hc : compatible tr.1 v = true
  · simp only [hc, Bool.not_true, Bool.false_eq_true, if_false]
    have h1 := h.keptByEnsureState a tr.2
    obtain ⟨w, hw⟩ := ensureState_find_self a acc.1 tr.2
    have hv : (ensureState a acc.1 tr.2).vertexOf tr.2 = w := by
      simp [BuildState.vertexOf, hw]
    rw [hv]
    exact h1.addEdge b w (h1.find_lt hw)
  · simp only [Bool.not_eq_true] at hc
    simp only [hc, Bool.not_false, if_true]
    exact h

theorem WellFormed.keptBySuccLoop (a : SimpleAutomaton) (v : BDD) (b : Nat)
    (trs : List (BDD × Nat)) :
    ∀ acc : BuildState × Bool, WellFormed acc.1 →
      WellFormed (trs.foldl (succStep a v b) acc).1 := by
  induction trs with
  | nil => intro acc h; exact h
  | cons tr trs ih =>
    intro acc h
    rw [List.foldl_cons]
    exact ih _ (h.keptBySuccStep a v b tr)

theorem WellFormed.keptByValStep {a : SimpleAutomaton} {s : Nat} {st st' : BuildState} {v : BDD}
    (h : WellFormed st) (hv : valStep a s st v = some st') : WellFormed st' := by
  unfold valStep at hv
  by_cases hflag : ((a.successors s).foldl (succStep a v st.nindex) (openNature a s st, false)).2
      = true
  · simp only [hflag, if_true, Option.some.injEq] at hv
    rw [← hv]
    exact WellFormed.keptBySuccLoop a v st.nindex _ (openNature a s st, false)
      (h.keptByOpenNature a s)
  · simp [hflag] at hv

theorem WellFormed.keptByValLoop {a : SimpleAutomaton} {s : Nat} (vs : List BDD) :
    ∀ {st st' : BuildState}, WellFormed st → valLoop a s vs st = some st' →
      WellFormed st' := by
  induction vs with
  | nil =>
    intro st st' h hl
    simp only [valLoop, Option.some.injEq] at hl
    rw [← hl]
    exact h
  | cons v vs ih =>
    intro st st' h hl
    unfold valLoop at hl
    cases hstep : valStep a s st v with
    | none => rw [hstep] at hl; simp at hl
    | some st₁ =>
      rw [hstep] at hl
      exact ih (h.keptByValStep hstep) hl

theorem WellFormed.keptByStateLoop {a : SimpleAutomaton} {vs : List BDD} (l : List Nat) :
    ∀ {st st' : BuildState}, WellFormed st → stateLoop a vs l st = some st' →
      WellFormed st' := by
  induction l with
  | nil =>
    intro st st' h hl
    simp only [stateLoop, Option.some.injEq] at hl
    rw [← hl]
    exact h
  | cons s l ih =>
    intro st st' h hl
    unfold stateLoop at hl
    cases hstep : stateStep a vs st s with
    | none => rw [hstep] at hl; simp at hl
    | some st₁ =>
      rw [hstep] at hl
      exact ih (WellFormed.keptByValLoop vs (h.keptByEnsureState a s) hstep) hl

/-- Every value the variables of Step 2 take during the run is well-formed. -/
theorem Intermediate.wellFormed {a : SimpleAutomaton} {vs : List BDD} {st : BuildState}
    (h : Intermediate a vs st) : WellFormed st := by
  cases h with
  | outer n st _ hl => exact WellFormed.keptByStateLoop _ WellFormed.atInit hl
  | middle s st₀ done st₁ _ hl _ hv =>
    exact WellFormed.keptByValLoop done
      ((WellFormed.keptByStateLoop _ WellFormed.atInit hl).keptByEnsureState a s) hv
  | inner s st₀ done v st₁ scanned _ hl _ hv _ =>
    exact WellFormed.keptBySuccLoop a v st₁.nindex scanned _
      ((WellFormed.keptByValLoop done
        ((WellFormed.keptByStateLoop _ WellFormed.atInit hl).keptByEnsureState a s)
        hv).keptByOpenNature a s)

theorem WellFormed.nature_lt {a : SimpleAutomaton} {s : Nat} {st₁ X : BuildState}
    (h₁ : WellFormed st₁) (hX : WellFormed X) (hext : Extends (openNature a s st₁) X) :
    st₁.nindex < X.game.successors.length := by
  have hb : (openNature a s st₁).game.protagonist_vertex[st₁.nindex]? = some false := by
    show (st₁.game.protagonist_vertex ++ [false])[st₁.nindex]? = some false
    rw [← h₁.len_p]
    exact getElem?_snoc_length _ _
  have := (List.getElem?_eq_some.1 (hext.2 _ _ hb)).1
  rw [hX.len_s, ← hX.len_p]
  exact this

/-- C14: every value the variables of Step 2 take during the run (after each round of each
of the three loops, and after each creation of a vertex) is well-formed: the three vectors
of the arena have the same length, equal to `nindex`, and every vertex stored in the cache
or in an adjacency list is below it.  So the two indexings of `successors` are in bounds:
at line 197 the key `state` is in the cache and its vertex is an index of `successors`, at
line 217 both `nature_vertex` and the vertex of `next_state` are.  The final arena has no
dangling edge. -/
theorem construction_wellFormed (a : SimpleAutomaton) (input_vals : List BDD) :
    (∀ st, Intermediate a input_vals st → WellFormed st) ∧
    (∀ (state : Nat) (st : BuildState) (done : List BDD) (st₁ : BuildState),
      state < a.numStates →
      stateLoop a input_vals (List.range state) BuildState.init = some st →
      done <+: input_vals →
      valLoop a state done (ensureState a st state) = some st₁ →
      ∃ x, st₁.find state = some x ∧ st₁.vertexOf state = x ∧
        x < (st₁.game.addVertex false (a.priorities state)).successors.length) ∧
    (∀ (state : Nat) (st : BuildState) (done : List BDD) (val : BDD) (st₁ : BuildState)
        (scanned : List (BDD × Nat)) (succ : BDD × Nat),
      state < a.numStates →
      stateLoop a input_vals (List.range state) BuildState.init = some st →
      done ++ [val] <+: input_vals →
      valLoop a state done (ensureState a st state) = some st₁ →
      scanned ++ [succ] <+: a.successors state →
      st₁.nindex <
        (ensureState a (scanned.foldl (succStep a val st₁.nindex)
          (openNature a state st₁, false)).1 succ.2).game.successors.length ∧
      ∃ w, (ensureState a (scanned.foldl (succStep a val st₁.nindex)
            (openNature a state st₁, false)).1 succ.2).find succ.2 = some w ∧
        w < (ensureState a (scanned.foldl (succStep a val st₁.nindex)
          (openNature a state st₁, false)).1 succ.2).game.successors.length) ∧
    (∀ st, build a input_vals = some st →
      gameBuilder a input_vals = some st.game ∧ WellFormed st ∧
      ∀ l ∈ st.game.successors, ∀ w ∈ l, w < st.game.protagonist_vertex.length) := by
  refine ⟨fun st h => h.wellFormed, ?_, ?_, ?_⟩
  · intro state st done st₁ hs hl hpre hv
    have hwf : WellFormed st₁ := (Intermediate.middle state st done st₁ hs hl hpre hv).wellFormed
    obtain ⟨x, hx⟩ := ensureState_find_self a st state
    have hx₁ := (extends_valLoop done hv).1 _ _ hx
    refine ⟨x, hx₁, by simp [BuildState.vertexOf, hx₁], ?_⟩
    have := hwf.find_lt hx₁
    simp only [SimpleArena.addVertex, List.length_append, hwf.len_s, List.length_singleton]
    omega
  · intro state st done val st₁ scanned succ hs hl hpre hv hscan
    have hwf₁ : WellFormed st₁ :=
      (Intermediate.middle state st done st₁ hs hl
        ((List.prefix_append done [val]).trans hpre) hv).wellFormed
    have hwfX : WellFormed (scanned.foldl (succStep a val st₁.nindex)
        (openNature a state st₁, false)).1 :=
      (Intermediate.inner state st done val st₁ scanned hs hl hpre hv
        ((List.prefix_append scanned [succ]).trans hscan)).wellFormed
    have hwfY := hwfX.keptByEnsureState a succ.2
    have hext := (extends_succLoop a val st₁.nindex scanned (openNature a state st₁, false)).trans
      (extends_ensureState a _ succ.2)
    refine ⟨WellFormed.nature_lt hwf₁ hwfY hext, ?_⟩
    obtain ⟨w, hw⟩ := ensureState_find_self a
      (scanned.foldl (succStep a val st₁.nindex) (openNature a state st₁, false)).1 succ.2
    refine ⟨w, hw, ?_⟩
    rw [hwfY.len_s]
    exact hwfY.find_lt hw
  · intro st hb
    have hwf : WellFormed st :=
      (Intermediate.outer a.numStates st (Nat.le_refl _) hb).wellFormed
    refine ⟨by simp [gameBuilder, hb], hwf, fun l hl w hw => ?_⟩
    rw [hwf.len_p]
    exact hwf.edge_lt l hl w hw

/-- C14 on the worked example: the final state is well-formed. -/
theorem construction_wellFormed_witness : WellFormed exampleState :=
  (construction_wellFormed exampleAutomaton exampleVals).1 exampleState
    (Intermediate.outer 3 exampleState (by decide) example_build)

/-! ## Reachability of the arena -/

theorem mem_visitStep (g : SimpleArena) (vis : List Nat) (x : Nat) :
    x ∈ g.visitStep vis ↔ x ∈ vis ∨ ∃ y ∈ vis, x ∈ g.succ y := by
  unfold SimpleArena.visitStep
  rw [List.mem_dedup, List.mem_append, List.mem_flatMap]

theorem forall₂_mem_left {α β : Type} {R : α → β → Prop} {l₁ : List α} {l₂ : List β}
    (h : List.Forall₂ R l₁ l₂) {x : α} (hx : x ∈ l₁) : ∃ y ∈ l₂, R x y := by
  induction h with
  | nil => simp at hx
  | cons hab _ ih =>
    rcases List.mem_cons.1 hx with rfl | hx
    · exact ⟨_, List.mem_cons_self _ _, hab⟩
    · obtain ⟨y, hy, hr⟩ := ih hx
      exact ⟨y, List.mem_cons_of_mem _ hy, hr⟩

/-- The rounds of the traversal: the list of visited vertices after `n` rounds. -/
theorem visited_rounds (g : SimpleArena) (h0 : 0 < g.protagonist_vertex.length)
    (hedge : ∀ u w, w ∈ g.succ u → w < g.protagonist_vertex.length) (n : Nat) :
    ((g.visitStep)^[n] [0]).Nodup ∧ 0 ∈ (g.visitStep)^[n] [0] ∧
    (∀ x ∈ (g.visitStep)^[n] [0], x < g.protagonist_vertex.length) ∧
    ((∀ y ∈ (g.visitStep)^[n] [0], ∀ x ∈ g.succ y, x ∈ (g.visitStep)^[n] [0]) ∨
      n + 1 ≤ ((g.visitStep)^[n] [0]).length) := by
  induction n with
  | zero =>
    refine ⟨by simp, by simp, ?_, Or.inr (by simp)⟩
    intro x hx
    simp only [Function.iterate_zero, id_eq, List.mem_singleton] at hx
    rw [hx]
    exact h0
  | succ n ih =>
    obtain ⟨hnd, hzero, hlt, hgrow⟩ := ih
    rw [Function.iterate_succ_apply']
    generalize (g.visitStep)^[n] [0] = vis at hnd hzero hlt hgrow
    have hnd' : (g.visitStep vis).Nodup := List.nodup_dedup _
    refine ⟨hnd', (mem_visitStep g vis 0).2 (Or.inl hzero), ?_, ?_⟩
    · intro x hx
      rcases (mem_visitStep g vis x).1 hx with hx | ⟨y, _, hxy⟩
      · exact hlt x hx
      · exact hedge y x hxy
    · by_cases hclosed : ∀ y ∈ vis, ∀ x ∈ g.succ y, x ∈ vis
      · left
        intro y hy x hx
        rcases (mem_visitStep g vis y).1 hy with hy | ⟨z, hz, hyz⟩
        · exact (mem_visitStep g vis x).2 (Or.inl (hclosed y hy x hx))
        · exact (mem_visitStep g vis x).2 (Or.inl (hclosed y (hclosed z hz y hyz) x hx))
      · right
        have hlen : n + 1 ≤ vis.length := by
          rcases hgrow with h | h
          · exact absurd h hclosed
          · exact h
        simp only [not_forall] at hclosed
        obtain ⟨y, hy, x, hx, hnot⟩ := hclosed
        have hcons : (x :: vis).Nodup := List.nodup_cons.2 ⟨hnot, hnd⟩
        have hsub : x :: vis ⊆ g.visitStep vis := by
          intro z hz
          rcases List.mem_cons.1 hz with rfl | hz
          · exact (mem_visitStep g vis z).2 (Or.inr ⟨y, hy, hx⟩)
          · exact (mem_visitStep g vis z).2 (Or.inl hz)
        have := (List.subperm_of_subset hcons hsub).length_le
        simp only [List.length_cons] at this
        omega

/-- In an arena without dangling edges the traversal visits every vertex that is reachable
from vertex 0. -/
theorem visited_complete (g : SimpleArena) (h0 : 0 < g.protagonist_vertex.length)
    (hedge : ∀ u w, w ∈ g.succ u → w < g.protagonist_vertex.length) {x : Nat}
    (hx : g.Reach 0 x) : x ∈ g.visited := by
  obtain ⟨hnd, hzero, hlt, hgrow⟩ := visited_rounds g h0 hedge g.protagonist_vertex.length
  have hclosed : ∀ y ∈ g.visited, ∀ x ∈ g.succ y, x ∈ g.visited := by
    rcases hgrow with h | h
    · exact h
    · have hsub : (g.visitStep)^[g.protagonist_vertex.length] [0] ⊆
          List.range g.protagonist_vertex.length :=
        fun z hz => List.mem_range.2 (hlt z hz)
      have := (List.subperm_of_subset hnd hsub).length_le
      rw [List.length_range] at this
      omega
  induction hx with
  | refl => exact hzero
  | tail _ hyz ih => exact hclosed _ ih _ hyz

/-- The reachability check passes exactly when every vertex is reachable from vertex 0, in
an arena without dangling edges. -/
theorem isReachable_complete (g : SimpleArena)
    (hedge : ∀ u w, w ∈ g.succ u → w < g.protagonist_vertex.length)
    (hreach : ∀ x < g.protagonist_vertex.length, g.Reach 0 x) : g.isReachable = true := by
  unfold SimpleArena.isReachable
  rw [List.all_eq_true]
  intro x hx
  have hlt := List.mem_range.1 hx
  simpa using visited_complete g (by omega) hedge (hreach x hlt)

/-- The class-A vertex of every state reachable from state 0 is reachable from vertex 0. -/
theorem Built.reach_complete {a : SimpleAutomaton} {vs : List BDD} {st : BuildState}
    (hB : Built a vs st) (hS : 1 ≤ a.numStates)
    (htgt : ∀ s < a.numStates, ∀ tr ∈ a.successors s, tr.2 < a.numStates)
    (h0 : st.find 0 = some 0) {s : Nat} (hs : a.Reach vs 0 s) :
    s < a.numStates ∧ st.game.Reach 0 (st.vertexOf s) := by
  induction hs with
  | refl =>
    exact ⟨by omega, by simp [BuildState.vertexOf, h0]; exact Relation.ReflTransGen.refl⟩
  | tail _ hstep ih =>
    obtain ⟨hs, hreach⟩ := ih
    obtain ⟨tr, htr, rfl, v, hv, hcomp⟩ := hstep
    refine ⟨htgt _ hs tr htr, ?_⟩
    obtain ⟨b, hb, hnat⟩ := forall₂_mem_left (hB.expanded hs).2.2.2 hv
    have h1 : st.game.Reach 0 b := Relation.ReflTransGen.tail hreach hb
    refine Relation.ReflTransGen.tail h1 ?_
    rw [hnat.2.2]
    exact List.mem_map.2 ⟨tr, List.mem_filter.2 ⟨htr, hcomp⟩, rfl⟩

/-- C13: for an automaton with at least one state whose transition targets are all declared
states, and a valuation sequence on which the construction succeeds, vertex 0 is the
class-A vertex of state 0; and if every declared state is reachable from state 0 along
transitions compatible with a valuation of the sequence, every vertex of the arena is
reachable from vertex 0 and the reachability check passes. -/
theorem reachable_states_give_reachable_arena (a : SimpleAutomaton) (vals : List BDD)
    (st : BuildState) (hS : 1 ≤ a.numStates)
    (htgt : ∀ s < a.numStates, ∀ tr ∈ a.successors s, tr.2 < a.numStates)
    (hb : build a vals = some st) :
    gameBuilder a vals = some st.game ∧
    st.find 0 = some 0 ∧ st.game.protagonist_vertex[0]? = some true ∧
    st.game.priorities[0]? = some (a.priorities 0) ∧
    ((∀ s < a.numStates, a.Reach vals 0 s) →
      (∀ x < st.game.protagonist_vertex.length, st.game.Reach 0 x) ∧
      st.game.isReachable = true) := by
  have hB := build_built htgt hb
  have h0 := build_vertexOf_zero hS hb
  have hv0 : st.vertexOf 0 = 0 := by simp [BuildState.vertexOf, h0]
  obtain ⟨_, hA0, hQ0, _⟩ := hB.expanded (show 0 < a.numStates by omega)
  rw [hv0] at hA0 hQ0
  refine ⟨by simp [gameBuilder, hb], h0, hA0, hQ0, ?_⟩
  intro hall
  have hreach : ∀ x < st.game.protagonist_vertex.length, st.game.Reach 0 x := by
    intro x hx
    rcases vertex_class st.game hx with hA | hN
    · obtain ⟨s, hs, rfl⟩ := hB.classA hA
      exact (hB.reach_complete hS htgt h0 (hall s hs)).2
    · obtain ⟨s, hs, v, _, hmem, _, _⟩ := hB.classB hN
      exact Relation.ReflTransGen.tail (hB.reach_complete hS htgt h0 (hall s hs)).2 hmem
  refine ⟨hreach, isReachable_complete st.game ?_ hreach⟩
  obtain ⟨γ, hinv, _, _⟩ := hB.ghost
  intro u w hw
  rw [hinv.len_p]
  exact hinv.edge_lt hw

theorem cycle_targets :
    ∀ s < cycleAutomaton.numStates, ∀ tr ∈ cycleAutomaton.successors s,
      tr.2 < cycleAutomaton.numStates := by
  decide

theorem cycle_build : build cycleAutomaton exampleVals = some cycleState := by
  decide

/-- In the three-state cycle every declared state is reachable from state 0: state 1 by the
transition guarded by the input, which is compatible with the second valuation, and state 2
by one more transition. -/
theorem cycle_reach : ∀ s < cycleAutomaton.numStates, cycleAutomaton.Reach exampleVals 0 s := by
  have h1 : cycleAutomaton.Reach exampleVals 0 1 :=
    Relation.ReflTransGen.tail Relation.ReflTransGen.refl
      ⟨(BDD.bddVar 0, 1), by decide, rfl, BDD.and BDD.bddOne (BDD.bddVar 0), by decide,
        by decide⟩
  have h2 : cycleAutomaton.Reach exampleVals 0 2 :=
    Relation.ReflTransGen.tail h1
      ⟨(BDD.bddOne, 2), by decide, rfl, BDD.and BDD.bddOne (BDD.bddVar 0), by decide,
        by decide⟩
  intro s hs
  have hs3 : s < 3 := hs
  obtain rfl | rfl | rfl : s = 0 ∨ s = 1 ∨ s = 2 := by omega
  · exact Relation.ReflTransGen.refl
  · exact h1
  · exact h2

/-- C13 on the three-state cycle, with the two valuations Step 1 produces for its input:
state 2 is reachable from state 0 only through state 1, every declared state is reachable,
and all nine vertices of the arena are reachable from vertex 0, so the check passes. -/
theorem reachable_states_give_reachable_arena_witness :
    1 ≤ cycleAutomaton.numStates ∧
    (∀ s < cycleAutomaton.numStates, ∀ tr ∈ cycleAutomaton.successors s,
      tr.2 < cycleAutomaton.numStates) ∧
    enumerate 3 cycleAutomaton.uinputs = some exampleVals ∧
    build cycleAutomaton exampleVals = some cycleState ∧
    (∀ s < cycleAutomaton.numStates, cycleAutomaton.Reach exampleVals 0 s) ∧
    cycleState.game.protagonist_vertex.length = 9 ∧
    (∀ x < cycleState.game.protagonist_vertex.length, cycleState.game.Reach 0 x) ∧
    cycleState.game.isReachable = true :=
  have key := (reachable_states_give_reachable_arena cycleAutomaton exampleVals cycleState
    (by decide) cycle_targets cycle_build).2.2.2.2 cycle_reach
  ⟨by decide, cycle_targets, by decide, cycle_build, cycle_reach, rfl, key.1, key.2⟩

/-! ## The order of the valuations is immaterial -/

/-- A permutation of a list is a permutation of its positions. -/
theorem perm_index {α : Type} {l₁ l₂ : List α} (h : l₁.Perm l₂) :
    ∃ π ρ : Nat → Nat,
      (∀ j < l₁.length, π j < l₂.length ∧ ρ (π j) = j ∧ l₂[π j]? = l₁[j]?) ∧
      (∀ j < l₂.length, ρ j < l₁.length ∧ π (ρ j) = j) := by
  induction h with
  | nil => exact ⟨id, id, by simp, by simp⟩
  | cons x _ ih =>
    obtain ⟨π, ρ, h1, h2⟩ := ih
    refine ⟨fun j => if j = 0 then 0 else π (j - 1) + 1,
      fun j => if j = 0 then 0 else ρ (j - 1) + 1, ?_, ?_⟩
    · intro j hj
      cases j with
      | zero => simp
      | succ j =>
        obtain ⟨a1, a2, a3⟩ := h1 j (by simpa using hj)
        simp only [Nat.add_one_ne_zero, if_false, Nat.add_sub_cancel, List.length_cons,
          List.getElem?_cons_succ]
        exact ⟨by omega, by rw [a2], a3⟩
    · intro j hj
      cases j with
      | zero => simp
      | succ j =>
        have := h2 j (by simpa using hj)
        simp [this.1, this.2]
  | swap x y l =>
    refine ⟨fun j => if j = 0 then 1 else if j = 1 then 0 else j,
      fun j => if j = 0 then 1 else if j = 1 then 0 else j, ?_, ?_⟩
    · intro j hj
      cases j with
      | zero => simp
      | succ j =>
        cases j with
        | zero => simp
        | succ j => simpa using hj
    · intro j hj
      cases j with
      | zero => simp
      | succ j =>
        cases j with
        | zero => simp
        | succ j => simpa using hj
  | trans _ _ ih₁ ih₂ =>
    obtain ⟨π₁, ρ₁, h1, h2⟩ := ih₁
    obtain ⟨π₂, ρ₂, h3, h4⟩ := ih₂
    refine ⟨fun j => π₂ (π₁ j), fun j => ρ₁ (ρ₂ j), ?_, ?_⟩
    · intro j hj
      obtain ⟨a1, a2, a3⟩ := h1 j hj
      obtain ⟨b1, b2, b3⟩ := h3 (π₁ j) a1
      exact ⟨b1, by simp only [b2, a2], by rw [b3, a3]⟩
    · intro j hj
      obtain ⟨a1, a2⟩ := h4 j hj
      obtain ⟨b1, b2⟩ := h2 (ρ₂ j) a1
      exact ⟨b1, by simp only [b2, a2]⟩

/-- The position of a class-B vertex: it is the `j`-th successor of the class-A vertex of
one declared state `s`, occurs once in that list and at no other position of the arena. -/
theorem Built.position {a : SimpleAutomaton} {vs : List BDD} {st : BuildState}
    (hB : Built a vs st) {x : Nat} (hx : st.game.protagonist_vertex[x]? = some false) :
    ∃ s j, s < a.numStates ∧ j < vs.length ∧
      (st.game.succ (st.vertexOf s))[j]? = some x ∧
      (st.game.succ (st.vertexOf s)).count x = 1 ∧
      ∀ s' j', s' < a.numStates → (st.game.succ (st.vertexOf s'))[j']? = some x →
        s' = s ∧ j' = j := by
  obtain ⟨s, hs, v, _, hmem, _, hocc⟩ := hB.classB hx
  obtain ⟨j, hj, hjx⟩ := mem_iff_getElem?_lt hmem
  have hlen := (hB.expanded hs).2.2.2.length_eq
  have hpos : 0 < (st.game.succ (st.vertexOf s)).count x := List.count_pos_iff.2 hmem
  have hle := count_le_occurrences st.game (st.vertexOf s) x
  have hone : (st.game.succ (st.vertexOf s)).count x = 1 := by omega
  refine ⟨s, j, hs, by omega, hjx, hone, ?_⟩
  intro s' j' hs' hj'
  have hmem' : x ∈ st.game.succ (st.vertexOf s') := List.getElem?_mem hj'
  have hss : s' = s := by
    by_contra hne
    have hvne : st.vertexOf s ≠ st.vertexOf s' := fun h => hne (hB.inj hs hs' h).symm
    have h2 := two_counts_le_sum x st.game.successors _ _ hvne
    have hpos' : 0 < (st.game.succ (st.vertexOf s')).count x := List.count_pos_iff.2 hmem'
    unfold SimpleArena.occurrences at hocc
    unfold SimpleArena.succ at hpos hpos'
    omega
  subst hss
  exact ⟨rfl, count_eq_one_index_unique hone hj' hjx⟩

/-- The vertex at a position of the successor list of a class-A vertex. -/
theorem Built.nature_at {a : SimpleAutomaton} {vs : List BDD} {st : BuildState}
    (hB : Built a vs st) {s : Nat} (hs : s < a.numStates) {j : Nat} {v : BDD}
    (hv : vs[j]? = some v) :
    ∃ b, (st.game.succ (st.vertexOf s))[j]? = some b ∧ NatureOf a st s v b := by
  have hshape := (hB.expanded hs).2.2.2
  have hj : j < (st.game.succ (st.vertexOf s)).length := by
    rw [← hshape.length_eq]
    exact (List.getElem?_eq_some.1 hv).1
  exact ⟨_, List.getElem?_eq_getElem hj,
    forall₂_getElem? hshape hv (List.getElem?_eq_getElem hj)⟩

theorem Built.count_targets {a : SimpleAutomaton} {vs : List BDD} {st : BuildState}
    (hB : Built a vs st) (L : List (BDD × Nat)) (hL : ∀ tr ∈ L, tr.2 < a.numStates)
    {t : Nat} (ht : t < a.numStates) :
    (L.map fun tr => st.vertexOf tr.2).count (st.vertexOf t) = (L.map Prod.snd).count t := by
  induction L with
  | nil => rfl
  | cons tr L ih =>
    have htr := hL tr (List.mem_cons_self _ _)
    rw [List.map_cons, List.map_cons, List.count_cons, List.count_cons,
      ih (fun tr' h => hL tr' (List.mem_cons_of_mem _ h))]
    by_cases heq : tr.2 = t
    · simp [heq]
    · have hne : st.vertexOf tr.2 ≠ st.vertexOf t := fun h => heq (hB.inj htr ht h)
      simp [heq, hne]

/-- The two ends of an edge of the final arena are of different classes. -/
theorem Built.succ_class {a : SimpleAutomaton} {vs : List BDD} {st : BuildState}
    (hB : Built a vs st)
    (htgt : ∀ s < a.numStates, ∀ tr ∈ a.successors s, tr.2 < a.numStates)
    {x y : Nat} (hy : y ∈ st.game.succ x) :
    (st.game.protagonist_vertex[x]? = some true ∧
      st.game.protagonist_vertex[y]? = some false) ∨
    (st.game.protagonist_vertex[x]? = some false ∧
      st.game.protagonist_vertex[y]? = some true) := by
  have hx : x < st.game.protagonist_vertex.length := by
    rw [hB.lengths.1, ← hB.lengths.2.1]
    exact mem_succ_lt_length _ _ _ hy
  rcases vertex_class st.game hx with hA | hN
  · obtain ⟨s, hs, rfl⟩ := hB.classA hA
    obtain ⟨v, _, hnat⟩ := forall₂_mem_right (hB.expanded hs).2.2.2 hy
    exact Or.inl ⟨hA, hnat.1⟩
  · obtain ⟨s, hs, v, _, _, hnat, _⟩ := hB.classB hN
    rw [hnat.2.2, List.mem_map] at hy
    obtain ⟨tr, htr, rfl⟩ := hy
    exact Or.inr ⟨hN, (hB.expanded (htgt s hs tr (List.mem_filter.1 htr).1)).2.1⟩

theorem Built.not_succ_same_class {a : SimpleAutomaton} {vs : List BDD} {st : BuildState}
    (hB : Built a vs st)
    (htgt : ∀ s < a.numStates, ∀ tr ∈ a.successors s, tr.2 < a.numStates)
    {x y : Nat} {c : Bool} (hx : st.game.protagonist_vertex[x]? = some c)
    (hy : st.game.protagonist_vertex[y]? = some c) : y ∉ st.game.succ x := by
  intro hmem
  rcases hB.succ_class htgt hmem with ⟨h1, h2⟩ | ⟨h1, h2⟩
  · rw [hx] at h1
    rw [hy] at h2
    rw [Option.some.inj h1] at h2
    simp at h2
  · rw [hx] at h1
    rw [hy] at h2
    rw [Option.some.inj h1] at h2
    simp at h2

/-- The arenas built from two valuation sequences that are permutations of each other are
isomorphic. -/
theorem build_iso {a : SimpleAutomaton} {vals vals' : List BDD} {st st' : BuildState}
    (htgt : ∀ s < a.numStates, ∀ tr ∈ a.successors s, tr.2 < a.numStates)
    (hperm : vals.Perm vals') (hb : build a vals = some st)
    (hb' : build a vals' = some st') : ArenaIso st.game st'.game := by
  classical
  have hB := build_built htgt hb
  have hB' := build_built htgt hb'
  obtain ⟨π, ρ, hπ, hρ⟩ := perm_index hperm
  have hAex : ∀ x, st.game.protagonist_vertex[x]? = some true →
      ∃ s, s < a.numStates ∧ st.vertexOf s = x := fun x hx => by
    obtain ⟨s, hs, h⟩ := hB.classA hx
    exact ⟨s, hs, h⟩
  choose! sA hsA using hAex
  have hBex := fun x (hx : st.game.protagonist_vertex[x]? = some false) => hB.position hx
  choose! sB jB hsB using hBex
  let f : Nat → Nat := fun x =>
    if st.game.protagonist_vertex[x]? = some true then st'.vertexOf (sA x)
    else (st'.game.succ (st'.vertexOf (sB x))).getD (π (jB x)) 0
  have fA : ∀ x, st.game.protagonist_vertex[x]? = some true → f x = st'.vertexOf (sA x) :=
    fun x hx => by simp only [f, hx, if_true]
  have fB : ∀ x, st.game.protagonist_vertex[x]? = some false →
      ∃ v, vals[jB x]? = some v ∧ NatureOf a st (sB x) v x ∧
        (st'.game.succ (st'.vertexOf (sB x)))[π (jB x)]? = some (f x) ∧
        NatureOf a st' (sB x) v (f x) := by
    intro x hx
    obtain ⟨hs, hj, hpos, -, -⟩ := hsB x hx
    obtain ⟨-, -, hπ3⟩ := hπ (jB x) hj
    have hv : vals[jB x]? = some vals[jB x] := List.getElem?_eq_getElem hj
    obtain ⟨b, hb1, hnat⟩ := hB.nature_at hs hv
    rw [hpos] at hb1
    rw [← Option.some.inj hb1] at hnat
    obtain ⟨b', hb1', hnat'⟩ := hB'.nature_at hs (hπ3.trans hv)
    have hf : f x = b' := by
      have hne : ¬ st.game.protagonist_vertex[x]? = some true := by rw [hx]; simp
      simp only [f, hne, if_false]
      rw [List.getD_eq_getElem?_getD, hb1']
      rfl
    rw [hf]
    exact ⟨_, hv, hnat, hb1', hnat'⟩
  have hclass : ∀ x < st.game.protagonist_vertex.length,
      st'.game.protagonist_vertex[f x]? = st.game.protagonist_vertex[x]? := by
    intro x hx
    rcases vertex_class st.game hx with hA | hN
    · rw [fA x hA, hA]
      exact (hB'.expanded (hsA x hA).1).2.1
    · obtain ⟨v, _, _, _, hnat'⟩ := fB x hN
      rw [hN]
      exact hnat'.1
  have hprio : ∀ x < st.game.protagonist_vertex.length,
      st'.game.priorities[f x]? = st.game.priorities[x]? := by
    intro x hx
    rcases vertex_class st.game hx with hA | hN
    · obtain ⟨hs, hxeq⟩ := hsA x hA
      have h1 := (hB.expanded hs).2.2.1
      rw [hxeq] at h1
      rw [fA x hA, h1]
      exact (hB'.expanded hs).2.2.1
    · obtain ⟨v, _, hnat, _, hnat'⟩ := fB x hN
      rw [hnat.2.1]
      exact hnat'.2.1
  have hrange : ∀ x < st.game.protagonist_vertex.length,
      f x < st'.game.protagonist_vertex.length := by
    intro x hx
    have h := hclass x hx
    rw [List.getElem?_eq_getElem hx] at h
    exact (List.getElem?_eq_some.1 h).1
  refine ⟨f, hrange, ?_, ?_, ?_, hclass, hprio, ?_⟩
  · -- injective
    intro x hx y hy hxy
    rcases vertex_class st.game hx with hxA | hxN <;>
      rcases vertex_class st.game hy with hyA | hyN
    · rw [fA x hxA, fA y hyA] at hxy
      have := hB'.inj (hsA x hxA).1 (hsA y hyA).1 hxy
      rw [← (hsA x hxA).2, ← (hsA y hyA).2, this]
    · have h1 := hclass x hx
      have h2 := hclass y hy
      rw [hxy, h2, hyN, hxA] at h1
      simp at h1
    · have h1 := hclass x hx
      have h2 := hclass y hy
      rw [hxy, h2, hyA, hxN] at h1
      simp at h1
    · obtain ⟨_, _, _, hposx, hnatx⟩ := fB x hxN
      obtain ⟨_, _, _, hposy, _⟩ := fB y hyN
      obtain ⟨s0, j0, _, _, _, _, huniq⟩ := hB'.position hnatx.1
      have e1 := huniq (sB x) (π (jB x)) (hsB x hxN).1 hposx
      rw [← hxy] at hposy
      have e2 := huniq (sB y) (π (jB y)) (hsB y hyN).1 hposy
      have es : sB x = sB y := by rw [e1.1, e2.1]
      have ej : jB x = jB y := by
        have := congrArg ρ (e1.2.trans e2.2.symm)
        rw [(hπ _ (hsB x hxN).2.1).2.1, (hπ _ (hsB y hyN).2.1).2.1] at this
        exact this
      have px := (hsB x hxN).2.2.1
      have py := (hsB y hyN).2.2.1
      rw [es, ej, py] at px
      exact (Option.some.inj px).symm
  · -- surjective
    intro z hz
    rcases vertex_class st'.game hz with hzA | hzN
    · obtain ⟨s, hs, rfl⟩ := hB'.classA hzA
      have hA := (hB.expanded hs).2.1
      have hlt : st.vertexOf s < st.game.protagonist_vertex.length :=
        (List.getElem?_eq_some.1 hA).1
      refine ⟨st.vertexOf s, hlt, ?_⟩
      rw [fA _ hA, hB.inj (hsA _ hA).1 hs (hsA _ hA).2]
    · obtain ⟨s, j', hs, hj', hpos', _, _⟩ := hB'.position hzN
      obtain ⟨hρ1, hρ2⟩ := hρ j' hj'
      have hv : vals[ρ j']? = some vals[ρ j'] := List.getElem?_eq_getElem hρ1
      obtain ⟨x, hx1, hnat⟩ := hB.nature_at hs hv
      have hlt : x < st.game.protagonist_vertex.length :=
        (List.getElem?_eq_some.1 hnat.1).1
      refine ⟨x, hlt, ?_⟩
      obtain ⟨_, _, _, hposx, _⟩ := fB x hnat.1
      have e := (hsB x hnat.1).2.2.2.2 s (ρ j') hs hx1
      rw [← e.1, ← e.2, hρ2, hpos'] at hposx
      exact (Option.some.inj hposx).symm
  · -- vertex 0
    intro hN
    have hS : 1 ≤ a.numStates := by
      rcases vertex_class st.game hN with h | h
      · obtain ⟨s, hs, _⟩ := hB.classA h
        omega
      · obtain ⟨s, hs, _⟩ := hB.classB h
        omega
    have h0 := build_vertexOf_zero hS hb
    have h0' := build_vertexOf_zero hS hb'
    have hv0 : st.vertexOf 0 = 0 := by simp [BuildState.vertexOf, h0]
    have hv0' : st'.vertexOf 0 = 0 := by simp [BuildState.vertexOf, h0']
    have hA := (hB.expanded (show 0 < a.numStates by omega)).2.1
    rw [hv0] at hA
    have hs0 : sA 0 = 0 :=
      hB.inj (hsA 0 hA).1 (by omega) ((hsA 0 hA).2.trans hv0.symm)
    rw [fA 0 hA, hs0, hv0']
  · -- the number of edges between two vertices
    intro x hx y hy
    have hcx := hclass x hx
    have hcy := hclass y hy
    rcases vertex_class st.game hx with hxA | hxN
    · obtain ⟨hs, hxeq⟩ := hsA x hxA
      rcases vertex_class st.game hy with hyA | hyN
      · rw [List.count_eq_zero_of_not_mem (hB.not_succ_same_class htgt hxA hyA),
          List.count_eq_zero_of_not_mem
            (hB'.not_succ_same_class htgt (hcx.trans hxA) (hcy.trans hyA))]
      · obtain ⟨hs2, hj2, hpos2, hcount2, huniq2⟩ := hsB y hyN
        obtain ⟨v, _, _, hpos', hnat'⟩ := fB y hyN
        obtain ⟨s0, j0, _, _, _, hcount0, huniq0⟩ := hB'.position hnat'.1
        have e := huniq0 (sB y) (π (jB y)) hs2 hpos'
        by_cases hss : sB y = sA x
        · rw [fA x hxA, ← hss, e.1, hcount0]
          have : x = st.vertexOf (sB y) := by rw [hss, hxeq]
          rw [this, hcount2]
        · have h1 : y ∉ st.game.succ x := by
            intro hmem
            rw [← hxeq] at hmem
            obtain ⟨j'', _, hj''⟩ := mem_iff_getElem?_lt hmem
            exact hss (huniq2 (sA x) j'' hs hj'').1.symm
          have h2 : f y ∉ st'.game.succ (f x) := by
            intro hmem
            rw [fA x hxA] at hmem
            obtain ⟨j'', _, hj''⟩ := mem_iff_getElem?_lt hmem
            exact hss ((huniq0 (sA x) j'' hs hj'').1.trans e.1.symm).symm
          rw [List.count_eq_zero_of_not_mem h1, List.count_eq_zero_of_not_mem h2]
    · obtain ⟨v, _, hnat, _, hnat'⟩ := fB x hxN
      have hs := (hsB x hxN).1
      have hL : ∀ tr ∈ (a.successors (sB x)).filter (fun tr => compatible tr.1 v),
          tr.2 < a.numStates := fun tr h => htgt _ hs tr (List.mem_filter.1 h).1
      rcases vertex_class st.game hy with hyA | hyN
      · obtain ⟨ht, hyeq⟩ := hsA y hyA
        rw [hnat.2.2, hnat'.2.2, fA y hyA, hB'.count_targets _ hL ht]
        have := hB.count_targets _ hL ht
        rw [hyeq] at this
        rw [this]
      · rw [List.count_eq_zero_of_not_mem (hB.not_succ_same_class htgt hxN hyN),
          List.count_eq_zero_of_not_mem
            (hB'.not_succ_same_class htgt (hcx.trans hxN) (hcy.trans hyN))]

/-- C12: when all transition targets are declared states and two valuation sequences are
permutations of each other, the construction succeeds on one exactly when it succeeds on
the other, and the two arenas are isomorphic: a bijection between their vertices maps
vertex 0 to vertex 0 and preserves the owner class, the priority and the number of edges
between every pair of vertices. -/
theorem gameBuilder_perm (a : SimpleAutomaton) (vals vals' : List BDD)
    (htgt : ∀ s < a.numStates, ∀ tr ∈ a.successors s, tr.2 < a.numStates)
    (hperm : vals.Perm vals') :
    ((gameBuilder a vals).isSome = true ↔ (gameBuilder a vals').isSome = true) ∧
    ∀ g g', gameBuilder a vals = some g → gameBuilder a vals' = some g' → ArenaIso g g' := by
  constructor
  · have h : ∀ vs, (gameBuilder a vs).isSome = (build a vs).isSome := fun vs => by
      simp [gameBuilder]
    rw [h, h, build_isSome_iff, build_isSome_iff]
    constructor
    · intro hall s hs v hv
      exact hall s hs v (hperm.mem_iff.2 hv)
    · intro hall s hs v hv
      exact hall s hs v (hperm.mem_iff.1 hv)
  · intro g g' hg hg'
    obtain ⟨st, hb, rfl⟩ := build_of_gameBuilder hg
    obtain ⟨st', hb', rfl⟩ := build_of_gameBuilder hg'
    exact build_iso htgt hperm hb hb'

/-- C12 on the worked example: with the two valuations in the other order the class-B
vertices 1 and 3 of state 0 change places, and the two arenas are isomorphic. -/
theorem gameBuilder_perm_witness :
    (∀ s < exampleAutomaton.numStates, ∀ tr ∈ exampleAutomaton.successors s,
      tr.2 < exampleAutomaton.numStates) ∧
    exampleVals.Perm exampleVals.reverse ∧
    gameBuilder exampleAutomaton exampleVals = some exampleState.game ∧
    gameBuilder exampleAutomaton exampleVals.reverse = some
      { protagonist_vertex := [true, false, true, false, true, false, false, false, false]
        successors := [[1, 3], [2, 2], [7, 8], [0, 2], [5, 6], [4], [4], [2], [2]]
        priorities := [0, 0, 2, 0, 1, 1, 1, 2, 2] } ∧
    ArenaIso exampleState.game
      { protagonist_vertex := [true, false, true, false, true, false, false, false, false]
        successors := [[1, 3], [2, 2], [7, 8], [0, 2], [5, 6], [4], [4], [2], [2]]
        priorities := [0, 0, 2, 0, 1, 1, 1, 2, 2] } :=
  ⟨example_targets, (List.reverse_perm exampleVals).symm, by decide, by decide,
    (gameBuilder_perm exampleAutomaton exampleVals exampleVals.reverse example_targets
      (List.reverse_perm exampleVals).symm).2 _ _ (by decide) (by decide)⟩

end Hoa2pg
